import Mathlib

/-!
Verification of the sudoku tunnel core.

Bytes are modelled as `Nat` values below 256; Go's fixed-width integer
arithmetic is reproduced with explicit `% 2^w` where overflow can occur.
Randomness (padding coins, pool picks, codeword choice, shuffling) is
modelled by explicit oracle arguments, so theorems quantify over every
possible random choice.  AES-CTR keystreams and SHA-256 are pure
deterministic functions of their inputs; they enter the model as function
parameters, with "same key and IV" rendered as "same keystream function".
-/

namespace BitStream

/-- Value of a bit list, most significant bit first. -/
def bitsToNat (bl : List Bool) : Nat :=
  bl.foldl (fun a b => 2 * a + b.toNat) 0

/-- The `w` low bits of `v`, most significant first. -/
def natBits : Nat → Nat → List Bool
  | 0, _ => []
  | w + 1, v => natBits w (v / 2) ++ [v % 2 == 1]

theorem bitsToNat_aux (bl : List Bool) (a : Nat) :
    bl.foldl (fun a b => 2 * a + b.toNat) a = a * 2 ^ bl.length + bitsToNat bl := by
  induction bl generalizing a with
  | nil => simp [bitsToNat]
  | cons b bs ih =>
    simp only [List.foldl_cons, List.length_cons, bitsToNat]
    rw [ih (2 * a + b.toNat), ih (2 * 0 + b.toNat)]
    ring

theorem bitsToNat_cons (b : Bool) (bs : List Bool) :
    bitsToNat (b :: bs) = b.toNat * 2 ^ bs.length + bitsToNat bs := by
  simp only [bitsToNat, List.foldl_cons]
  rw [bitsToNat_aux]
  simp [bitsToNat]

theorem bitsToNat_append (a b : List Bool) :
    bitsToNat (a ++ b) = bitsToNat a * 2 ^ b.length + bitsToNat b := by
  simp only [bitsToNat, List.foldl_append]
  rw [bitsToNat_aux]
  rfl

theorem bitsToNat_lt (bl : List Bool) : bitsToNat bl < 2 ^ bl.length := by
  induction bl with
  | nil => simp [bitsToNat]
  | cons b bs ih =>
    rw [bitsToNat_cons]
    have hb : b.toNat ≤ 1 := Bool.toNat_le b
    have : b.toNat * 2 ^ bs.length ≤ 2 ^ bs.length := by
      calc b.toNat * 2 ^ bs.length ≤ 1 * 2 ^ bs.length :=
            Nat.mul_le_mul_right _ hb
        _ = 2 ^ bs.length := by ring
    calc b.toNat * 2 ^ bs.length + bitsToNat bs < b.toNat * 2 ^ bs.length + 2 ^ bs.length :=
          Nat.add_lt_add_left ih _
      _ ≤ 2 ^ bs.length + 2 ^ bs.length := Nat.add_le_add_right this _
      _ = 2 ^ (bs.length + 1) := by ring

theorem natBits_length (w v : Nat) : (natBits w v).length = w := by
  induction w generalizing v with
  | zero => rfl
  | succ w ih => simp [natBits, ih]

theorem bitsToNat_natBits (w v : Nat) : bitsToNat (natBits w v) = v % 2 ^ w := by
  induction w generalizing v with
  | zero => simp [natBits, bitsToNat, Nat.mod_one]
  | succ w ih =>
    rw [natBits, bitsToNat_append, ih]
    simp only [List.length_singleton, pow_one]
    have h2 : bitsToNat [v % 2 == 1] = v % 2 := by
      rcases Nat.mod_two_eq_zero_or_one v with h | h <;> simp [h, bitsToNat]
    rw [h2]
    have hpow : (2 : Nat) ^ (w + 1) = 2 * 2 ^ w := by ring
    rw [hpow, Nat.mod_mul]
    ring

theorem bitsToNat_natBits_of_lt {w v : Nat} (h : v < 2 ^ w) :
    bitsToNat (natBits w v) = v := by
  rw [bitsToNat_natBits, Nat.mod_eq_of_lt h]

theorem natBits_bitsToNat (bl : List Bool) : natBits bl.length (bitsToNat bl) = bl := by
  induction bl using List.reverseRecOn with
  | nil => rfl
  | append_singleton bs b ih =>
    rw [bitsToNat_append, List.length_append, List.length_singleton, natBits]
    have hb : bitsToNat [b] = b.toNat := by simp [bitsToNat]
    rw [hb]
    have hlt : b.toNat < 2 := by cases b <;> simp
    have hdiv : (bitsToNat bs * 2 ^ (1:Nat) + b.toNat) / 2 = bitsToNat bs := by
      rw [pow_one]
      omega
    have hmod : (bitsToNat bs * 2 ^ (1:Nat) + b.toNat) % 2 = b.toNat := by
      rw [pow_one]
      omega
    rw [hdiv, hmod, ih]
    cases b <;> simp

/-- Split a bit list into the values of its complete `g`-bit groups. -/
def chunks (g : Nat) (bl : List Bool) : List Nat :=
  if h : 0 < g ∧ g ≤ bl.length then
    bitsToNat (bl.take g) :: chunks g (bl.drop g)
  else []
termination_by bl.length
decreasing_by
  simp only [List.length_drop]
  omega

/-- The incomplete trailing group left over after `chunks`. -/
def chunksRem (g : Nat) (bl : List Bool) : List Bool :=
  if h : 0 < g ∧ g ≤ bl.length then chunksRem g (bl.drop g) else bl
termination_by bl.length
decreasing_by
  simp only [List.length_drop]
  omega

theorem chunks_concat_aux (g : Nat) (hg : 0 < g) :
    ∀ n (bl : List Bool), bl.length = n →
      (chunks g bl).foldr (fun c acc => natBits g c ++ acc) [] ++ chunksRem g bl = bl := by
  intro n
  induction n using Nat.strong_induction_on with
  | _ n ih =>
    intro bl hbl
    by_cases h : g ≤ bl.length
    · rw [chunks, chunksRem, dif_pos ⟨hg, h⟩, dif_pos ⟨hg, h⟩]
      have hlen : (bl.drop g).length < n := by
        simp only [List.length_drop]
        omega
      have htake : natBits g (bitsToNat (bl.take g)) = bl.take g := by
        have hl : (bl.take g).length = g := by
          simp only [List.length_take]
          omega
        calc natBits g (bitsToNat (bl.take g))
            = natBits (bl.take g).length (bitsToNat (bl.take g)) := by rw [hl]
          _ = bl.take g := natBits_bitsToNat _
      rw [List.foldr_cons, htake, List.append_assoc,
        ih _ hlen (bl.drop g) rfl, List.take_append_drop]
    · rw [chunks, chunksRem, dif_neg (by omega), dif_neg (by omega)]
      simp

theorem chunks_concat (g : Nat) (hg : 0 < g) (bl : List Bool) :
    (chunks g bl).foldr (fun c acc => natBits g c ++ acc) [] ++ chunksRem g bl = bl :=
  chunks_concat_aux g hg bl.length bl rfl

theorem chunksRem_length_lt_aux (g : Nat) (hg : 0 < g) :
    ∀ n (bl : List Bool), bl.length = n → (chunksRem g bl).length < g := by
  intro n
  induction n using Nat.strong_induction_on with
  | _ n ih =>
    intro bl hbl
    by_cases h : g ≤ bl.length
    · rw [chunksRem, dif_pos ⟨hg, h⟩]
      exact ih (bl.drop g).length (by simp only [List.length_drop]; omega) _ rfl
    · rw [chunksRem, dif_neg (by omega)]
      omega

theorem chunksRem_length_lt (g : Nat) (hg : 0 < g) (bl : List Bool) :
    (chunksRem g bl).length < g :=
  chunksRem_length_lt_aux g hg bl.length bl rfl

theorem chunks_lt_aux (g : Nat) :
    ∀ n (bl : List Bool), bl.length = n → ∀ c ∈ chunks g bl, c < 2 ^ g := by
  intro n
  induction n using Nat.strong_induction_on with
  | _ n ih =>
    intro bl hbl
    by_cases h : 0 < g ∧ g ≤ bl.length
    · rw [chunks, dif_pos h]
      intro c hc
      rcases List.mem_cons.mp hc with hc | hc
      · subst hc
        have hl : (bl.take g).length = g := by
          simp only [List.length_take]
          omega
        calc bitsToNat (bl.take g) < 2 ^ (bl.take g).length := bitsToNat_lt _
          _ = 2 ^ g := by rw [hl]
      · exact ih (bl.drop g).length (by simp only [List.length_drop]; omega) _ rfl c hc
    · rw [chunks, dif_neg h]
      simp

theorem chunks_lt (g : Nat) (bl : List Bool) :
    ∀ c ∈ chunks g bl, c < 2 ^ g :=
  chunks_lt_aux g bl.length bl rfl

theorem chunks_append_aux (g : Nat) :
    ∀ n (a : List Bool), a.length = n → ∀ b : List Bool,
      chunks g (a ++ b) = chunks g a ++ chunks g (chunksRem g a ++ b) ∧
      chunksRem g (a ++ b) = chunksRem g (chunksRem g a ++ b) := by
  intro n
  induction n using Nat.strong_induction_on with
  | _ n ih =>
    intro a ha b
    by_cases h : 0 < g ∧ g ≤ a.length
    · have hab : 0 < g ∧ g ≤ (a ++ b).length := by
        constructor
        · exact h.1
        · rw [List.length_append]
          omega
      have htake : (a ++ b).take g = a.take g := List.take_append_of_le_length h.2
      have hdrop : (a ++ b).drop g = a.drop g ++ b := List.drop_append_of_le_length h.2
      have hrec := ih (a.drop g).length (by simp only [List.length_drop]; omega)
        (a.drop g) rfl b
      constructor
      · conv_lhs => rw [chunks]
        rw [dif_pos hab, htake, hdrop, hrec.1]
        conv_rhs => rw [chunks]
        rw [dif_pos h]
        conv_rhs => rw [chunksRem]
        rw [dif_pos h, List.cons_append]
      · conv_lhs => rw [chunksRem]
        rw [dif_pos hab, hdrop, hrec.2]
        have hra : chunksRem g a = chunksRem g (a.drop g) := by
          conv_lhs => rw [chunksRem]
          rw [dif_pos h]
        rw [hra]
    · have hc : chunks g a = [] := by
        rw [chunks, dif_neg h]
      have hr : chunksRem g a = a := by
        rw [chunksRem, dif_neg h]
      rw [hc, hr, List.nil_append]
      exact ⟨rfl, rfl⟩

theorem chunks_append (g : Nat) (a b : List Bool) :
    chunks g (a ++ b) = chunks g a ++ chunks g (chunksRem g a ++ b) :=
  (chunks_append_aux g a.length a rfl b).1

theorem chunksRem_append (g : Nat) (a b : List Bool) :
    chunksRem g (a ++ b) = chunksRem g (chunksRem g a ++ b) :=
  (chunks_append_aux g a.length a rfl b).2

theorem bitsToNat_replicate_false (k : Nat) :
    bitsToNat (List.replicate k false) = 0 := by
  induction k with
  | zero => rfl
  | succ k ih =>
    rw [List.replicate_succ, bitsToNat_cons, ih]
    simp

theorem foldr_natBits_length (g : Nat) (xs : List Nat) :
    ((xs.foldr (fun c acc => natBits g c ++ acc) []) : List Bool).length = g * xs.length := by
  induction xs with
  | nil => simp
  | cons x xs ih =>
    simp only [List.foldr_cons, List.length_append, natBits_length, ih, List.length_cons]
    ring

theorem foldr_natBits_inj (g : Nat) :
    ∀ xs ys : List Nat, (∀ x ∈ xs, x < 2 ^ g) → (∀ y ∈ ys, y < 2 ^ g) →
      xs.length = ys.length →
      xs.foldr (fun c acc => natBits g c ++ acc) [] =
        ys.foldr (fun c acc => natBits g c ++ acc) [] → xs = ys := by
  intro xs
  induction xs with
  | nil =>
    intro ys _ _ hlen _
    cases ys with
    | nil => rfl
    | cons y ys => simp at hlen
  | cons x xs ih =>
    intro ys hx hy hlen h
    cases ys with
    | nil => simp at hlen
    | cons y ys =>
      simp only [List.foldr_cons] at h
      have hinj := List.append_inj h (by rw [natBits_length, natBits_length])
      have hxy : x = y := by
        have h1 : bitsToNat (natBits g x) = bitsToNat (natBits g y) := by rw [hinj.1]
        rw [bitsToNat_natBits_of_lt (hx x (List.mem_cons_self x xs)),
          bitsToNat_natBits_of_lt (hy y (List.mem_cons_self y ys))] at h1
        exact h1
      have hxs : xs = ys := by
        apply ih ys (fun a ha => hx a (List.mem_cons_of_mem _ ha))
          (fun a ha => hy a (List.mem_cons_of_mem _ ha))
          (by simpa using hlen) hinj.2
      rw [hxy, hxs]

theorem foldr_natBits_init (g : Nat) (xs : List Nat) (init : List Bool) :
    xs.foldr (fun c acc => natBits g c ++ acc) init =
      xs.foldr (fun c acc => natBits g c ++ acc) [] ++ init := by
  induction xs with
  | nil => simp
  | cons x xs ih => simp [ih]

theorem shiftLeft_or_eq_add {a b k : Nat} (hb : b < 2 ^ k) :
    (a <<< k) ||| b = 2 ^ k * a + b := by
  apply Nat.eq_of_testBit_eq
  intro i
  rw [Nat.testBit_or, Nat.testBit_shiftLeft, Nat.testBit_mul_pow_two_add a hb i]
  by_cases hik : i < k
  · have hn : ¬ (k ≤ i) := by omega
    simp [hn, hik]
  · have hki : k ≤ i := by omega
    have hbi : b.testBit i = false :=
      Nat.testBit_lt_two_pow (lt_of_lt_of_le hb (Nat.pow_le_pow_right (by norm_num) hki))
    simp [hki, hik, hbi]

end BitStream

namespace Sudoku

open BitStream

/-! ## Puzzle table (modelled from the spec)

Modelled from the spec: the puzzle `Table` produced by `NewTable(seed, mode)`
is not part of the available sources (only its declarations and users are).
Per the spec it exposes `encode[b]` (a non-empty list of 4-byte codewords per
plaintext byte), a non-empty `padding_pool`, and the mode flag `is_ascii`;
its classifier invariant says that in ASCII mode every codeword byte has bit
6 set and every padding byte has bit 6 clear, while in entropy mode every
codeword byte satisfies `b &&& 0x90 == 0` and every padding byte has at
least one of bits 4 or 7 set. -/
structure Table where
  encodeTable : Nat → List (List Nat)
  paddingPool : List Nat
  isASCII : Bool

/-- The stateless byte classifier used by `Conn.Read` and `Conn.readBoost`
(`conn.go`): in ASCII mode a byte is padding iff bit 6 is clear, in entropy
mode iff `b & 0x90 != 0`. -/
def isPaddingByte (ascii : Bool) (b : Nat) : Bool :=
  if ascii then b &&& 0x40 == 0 else b &&& 0x90 != 0

/-- Modelled from the spec: well-formedness of a puzzle table (non-empty
padding pool whose members are all classified as padding). -/
def Table.WFPadding (t : Table) : Prop :=
  t.paddingPool ≠ [] ∧ ∀ b ∈ t.paddingPool, isPaddingByte t.isASCII b = true

/-! ## Boost carrier packing (`conn.go`, `packBoostByte` / `unpackBoostByte`) -/

/-- Model of `packBoostByte` from `conn.go`: ASCII mode `0x40 | (bits & 0x3F)`,
entropy mode `((bits & 0x30) << 1) | (bits & 0x0F)`. -/
def packBoostByte (ascii : Bool) (bits : Nat) : Nat :=
  if ascii then 0x40 ||| (bits &&& 0x3F)
  else ((bits &&& 0x30) <<< 1) ||| (bits &&& 0x0F)

/-- Model of `unpackBoostByte` from `conn.go`: ASCII mode `b & 0x3F`, entropy mode
`((b & 0x60) >> 1) | (b & 0x0F)`. -/
def unpackBoostByte (ascii : Bool) (b : Nat) : Nat :=
  if ascii then b &&& 0x3F
  else ((b &&& 0x60) >>> 1) ||| (b &&& 0x0F)

theorem packBoost_facts_small :
    ∀ ascii : Bool, ∀ v ∈ List.range 64,
      isPaddingByte ascii (packBoostByte ascii v) = false ∧
      unpackBoostByte ascii (packBoostByte ascii v) = v := by
  decide

/-- C8: for every 6-bit value `v`, the packed boost carrier byte is never
classified as padding by the receiving classifier (ASCII mode: bit 6 set;
entropy mode: `value & 0x90 == 0`), and unpacking inverts packing in both
modes. -/
theorem packBoostByte_classified_data_and_invertible (ascii : Bool) (v : Nat)
    (h : v < 64) :
    isPaddingByte ascii (packBoostByte ascii v) = false ∧
    unpackBoostByte ascii (packBoostByte ascii v) = v :=
  packBoost_facts_small ascii v (List.mem_range.mpr h)

/-- Witness for C8 at `ascii := false`, `v := 42`. -/
theorem packBoostByte_classified_data_and_invertible_witness :
    isPaddingByte false (packBoostByte false 42) = false ∧
    unpackBoostByte false (packBoostByte false 42) = 42 :=
  packBoostByte_classified_data_and_invertible false 42 (by decide)

/-! ## Boost codec data path (`conn.go`: `writeBoost`, `flushBoostPadding`,
`readBoost`)

Shift buffers (`encBitBuf`/`decBitBuf`, Go `uint64`) are `Nat` with explicit
`% 2^64` where the source shifts left.  A padding opportunity (one
`rng.Float32() < paddingRate` coin, plus a pool pick when it fires) is an
`Option Nat`; `writeBoost` consumes one opportunity per emitted carrier byte
plus one trailing opportunity, `flushBoostPadding` consumes two. -/

/-- The bytes contributed by one padding opportunity:
`pads[rng.Intn(padLen)]` when the coin fires, nothing otherwise. -/
def padAt (pool : List Nat) (o : Option Nat) : List Nat :=
  match o with
  | none => []
  | some i => [pool.getD (i % pool.length) 0]

/-- The `for sc.encBits >= 6` drain loop of `writeBoost`: repeatedly pops the
top 6 bits (`byte(encBitBuf>>encBits) & 0x3F`) and masks the buffer down to
the remaining bits. -/
def extractChunks (buf bits : Nat) : List Nat × Nat × Nat :=
  if h : 6 ≤ bits then
    let bits' := bits - 6
    let chunk := ((buf >>> bits') % 256) &&& 0x3F
    let buf' := if bits' = 0 then 0 else buf &&& (((1 <<< bits') % 2 ^ 64) - 1)
    ((chunk :: (extractChunks buf' bits').1), (extractChunks buf' bits').2)
  else ([], buf, bits)
termination_by bits
decreasing_by all_goals omega

/-- Body of the `for _, b := range encBuf` loop of `writeBoost`: shift the
next encrypted byte into the accumulator and drain 6-bit chunks. -/
def boostPushByte (st : Nat × Nat) (b : Nat) : List Nat × Nat × Nat :=
  extractChunks (((st.1 <<< 8) % 2 ^ 64) ||| b) (st.2 + 8)

/-- The full byte loop of `writeBoost`, accumulating the drained 6-bit
chunks in emission order together with the final `(encBitBuf, encBits)`. -/
def writeBoostChunks : List Nat → Nat × Nat → List Nat × Nat × Nat
  | [], st => ([], st)
  | b :: bs, st =>
    ((boostPushByte st b).1 ++ (writeBoostChunks bs (boostPushByte st b).2).1,
      (writeBoostChunks bs (boostPushByte st b).2).2)

/-- Sequential byte-wise XOR against the keystream byte sequence `ks`,
starting at stream position `n`.  This is `cipher.Stream.XORKeyStream` for a
CTR stream whose byte at absolute position `i` is `ks i`; a stream keyed with
the same AES key and the same IV produces the same `ks`. -/
def xorKs (ks : Nat → Nat) : Nat → List Nat → List Nat
  | _, [] => []
  | n, b :: bs => (b ^^^ ks n) :: xorKs ks (n + 1) bs

/-- Carrier emission of `writeBoost`: before each packed carrier byte one
padding opportunity is consulted. -/
def emitCarriers (ascii : Bool) (pool : List Nat) : List Nat → List (Option Nat) → List Nat
  | [], _ => []
  | c :: cs, os =>
    padAt pool (os.headD none) ++
      packBoostByte ascii c :: emitCarriers ascii pool cs os.tail

/-- Model of `writeBoost p` with boost freshly enabled on the write side (encrypting
CTR stream at position 0, empty bit accumulator): returns the bytes handed to
the transport and the final `(encBitBuf, encBits)` pair. -/
def writeBoost (ascii : Bool) (pool : List Nat) (ks : Nat → Nat) (p : List Nat)
    (os : List (Option Nat)) : List Nat × Nat × Nat :=
  (emitCarriers ascii pool (writeBoostChunks (xorKs ks 0 p) (0, 0)).1 os ++
      padAt pool ((os.drop (writeBoostChunks (xorKs ks 0 p) (0, 0)).1.length).headD none),
    (writeBoostChunks (xorKs ks 0 p) (0, 0)).2)

/-- Model of `flushBoostPadding` with `boostWrite` enabled: emits the residual bits
left-shifted to the top of the 6-bit field, bracketed by two padding
opportunities; a no-op when the accumulator is empty. -/
def flushBoostPadding (ascii : Bool) (pool : List Nat) (st : Nat × Nat)
    (o1 o2 : Option Nat) : List Nat :=
  if st.2 = 0 then []
  else
    padAt pool o1 ++
      packBoostByte ascii (((st.1 <<< (6 - st.2)) % 2 ^ 64) &&& 0x3F) :: padAt pool o2

/-- The `for sc.decBits >= 8` drain loop of `readBoost`: pops the top 8 bits
(`byte(decBitBuf >> decBits)`). -/
def extractBytes (buf bits : Nat) : List Nat × Nat × Nat :=
  if h : 8 ≤ bits then
    let bits' := bits - 8
    let v := (buf >>> bits') % 256
    let buf' := if bits' = 0 then 0 else buf &&& (((1 <<< bits') % 2 ^ 64) - 1)
    ((v :: (extractBytes buf' bits').1), (extractBytes buf' bits').2)
  else ([], buf, bits)
termination_by bits
decreasing_by all_goals omega

/-- Body of the byte loop of `readBoost`: classify, discard padding, unpack
6 bits, drain complete bytes (still keystream-encrypted). -/
def readBoostStep (ascii : Bool) (st : Nat × Nat) (b : Nat) : List Nat × Nat × Nat :=
  if isPaddingByte ascii b then ([], st)
  else extractBytes (((st.1 <<< 6) % 2 ^ 64) ||| unpackBoostByte ascii b) (st.2 + 6)

/-- The full byte loop of `readBoost` over an incoming byte sequence. -/
def readBoostRaw (ascii : Bool) : List Nat → Nat × Nat → List Nat × Nat × Nat
  | [], st => ([], st)
  | b :: bs, st =>
    ((readBoostStep ascii st b).1 ++ (readBoostRaw ascii bs (readBoostStep ascii st b).2).1,
      (readBoostRaw ascii bs (readBoostStep ascii st b).2).2)

/-- Plaintext bytes delivered by `readBoost` with boost freshly enabled on
the read side, on the incoming byte sequence `input` (each drained byte is
XORed with the next decrypting keystream byte, one position per byte, exactly
as the per-byte `XORKeyStream(tmp, tmp)` of the source does). -/
def readBoostOut (ascii : Bool) (ks : Nat → Nat) (input : List Nat) : List Nat :=
  xorKs ks 0 (readBoostRaw ascii input (0, 0)).1

theorem xorKs_length (ks : Nat → Nat) (n : Nat) (l : List Nat) :
    (xorKs ks n l).length = l.length := by
  induction l generalizing n with
  | nil => rfl
  | cons b bs ih => simp [xorKs, ih]

theorem xorKs_lt (ks : Nat → Nat) (hks : ∀ i, ks i < 256) (n : Nat) (l : List Nat)
    (hl : ∀ b ∈ l, b < 256) : ∀ b ∈ xorKs ks n l, b < 256 := by
  induction l generalizing n with
  | nil => intro b hb; simp [xorKs] at hb
  | cons a as ih =>
    intro b hb
    rcases List.mem_cons.mp hb with hb | hb
    · subst hb
      have h1 : a < 2 ^ 8 := hl a (List.mem_cons_self a as)
      have h2 : ks n < 2 ^ 8 := hks n
      exact Nat.xor_lt_two_pow h1 h2
    · exact ih (n + 1) (fun x hx => hl x (List.mem_cons_of_mem _ hx)) b hb

theorem xorKs_xorKs (ks : Nat → Nat) (n : Nat) (l : List Nat) :
    xorKs ks n (xorKs ks n l) = l := by
  induction l generalizing n with
  | nil => rfl
  | cons b bs ih =>
    simp only [xorKs, ih]
    congr 1
    rw [Nat.xor_assoc, Nat.xor_self, Nat.xor_zero]

/-! ### Refinement of the shift-buffer loops to bit-list chunking -/

/-- Bit stream of a byte sequence (8 bits per byte, MSB first). -/
def bytesBits (bs : List Nat) : List Bool :=
  bs.foldr (fun b acc => BitStream.natBits 8 b ++ acc) []

/-- Bit stream of a 6-bit chunk sequence. -/
def chunkBits (cs : List Nat) : List Bool :=
  cs.foldr (fun c acc => BitStream.natBits 6 c ++ acc) []

theorem bitsToNat_take_div (g : Nat) (bl : List Bool) (hg : g ≤ bl.length) :
    BitStream.bitsToNat bl >>> (bl.length - g) = BitStream.bitsToNat (bl.take g) := by
  have hdec := BitStream.bitsToNat_append (bl.take g) (bl.drop g)
  rw [List.take_append_drop] at hdec
  have hlen : (bl.drop g).length = bl.length - g := List.length_drop g bl
  have hlt : BitStream.bitsToNat (bl.drop g) < 2 ^ (bl.length - g) := by
    rw [← hlen]
    exact BitStream.bitsToNat_lt _
  rw [Nat.shiftRight_eq_div_pow, hdec, hlen, Nat.mul_comm,
    Nat.mul_add_div (Nat.two_pow_pos _), Nat.div_eq_of_lt hlt]
  omega

theorem bitsToNat_drop_mod (g : Nat) (bl : List Bool) (hg : g ≤ bl.length) :
    BitStream.bitsToNat bl % 2 ^ (bl.length - g) = BitStream.bitsToNat (bl.drop g) := by
  have hdec := BitStream.bitsToNat_append (bl.take g) (bl.drop g)
  rw [List.take_append_drop] at hdec
  have hlen : (bl.drop g).length = bl.length - g := List.length_drop g bl
  have hlt : BitStream.bitsToNat (bl.drop g) < 2 ^ (bl.length - g) := by
    rw [← hlen]
    exact BitStream.bitsToNat_lt _
  rw [hdec, hlen, Nat.mul_comm, Nat.mul_add_mod, Nat.mod_eq_of_lt hlt]

theorem bitsToNat_take_lt (g : Nat) (bl : List Bool) (hg : g ≤ bl.length) :
    BitStream.bitsToNat (bl.take g) < 2 ^ g := by
  have hl : (bl.take g).length = g := by
    simp only [List.length_take]
    omega
  calc BitStream.bitsToNat (bl.take g) < 2 ^ (bl.take g).length := BitStream.bitsToNat_lt _
    _ = 2 ^ g := by rw [hl]

theorem extractChunks_spec_aux :
    ∀ n (bl : List Bool), bl.length = n → bl.length ≤ 64 →
      extractChunks (BitStream.bitsToNat bl) bl.length =
        (BitStream.chunks 6 bl,
          BitStream.bitsToNat (BitStream.chunksRem 6 bl),
          (BitStream.chunksRem 6 bl).length) := by
  intro n
  induction n using Nat.strong_induction_on with
  | _ n ih =>
    intro bl hbl h64
    by_cases h6 : 6 ≤ bl.length
    · have hm : (bl.drop 6).length = bl.length - 6 := List.length_drop 6 bl
      have htd := bitsToNat_take_div 6 bl h6
      have hdm := bitsToNat_drop_mod 6 bl h6
      have htlt : BitStream.bitsToNat (bl.take 6) < 2 ^ 6 := bitsToNat_take_lt 6 bl h6
      rw [extractChunks, dif_pos h6]
      have hchunk : ((BitStream.bitsToNat bl >>> (bl.length - 6)) % 256) &&& 0x3F =
          BitStream.bitsToNat (bl.take 6) := by
        rw [htd, Nat.mod_eq_of_lt (lt_trans htlt (by norm_num))]
        have h63 : (0x3F : Nat) = 2 ^ 6 - 1 := by norm_num
        rw [h63, Nat.and_pow_two_sub_one_of_lt_two_pow htlt]
      have hbuf : (if bl.length - 6 = 0 then 0
          else BitStream.bitsToNat bl &&& (((1 <<< (bl.length - 6)) % 2 ^ 64) - 1)) =
          BitStream.bitsToNat (bl.drop 6) := by
        by_cases hz : bl.length - 6 = 0
        · rw [if_pos hz]
          have : bl.drop 6 = [] := List.length_eq_zero.mp (by omega)
          rw [this]
          rfl
        · rw [if_neg hz]
          have hsh : (1 : Nat) <<< (bl.length - 6) = 2 ^ (bl.length - 6) := by
            rw [Nat.shiftLeft_eq, one_mul]
          have hlt64 : (2 : Nat) ^ (bl.length - 6) < 2 ^ 64 :=
            Nat.pow_lt_pow_right (by norm_num) (by omega)
          rw [hsh, Nat.mod_eq_of_lt hlt64, Nat.and_pow_two_sub_one_eq_mod, hdm]
      simp only [hchunk, hbuf]
      have hrec := ih (bl.drop 6).length (by omega) (bl.drop 6) rfl (by omega)
      rw [hm] at hrec
      have hc : BitStream.chunks 6 bl =
          BitStream.bitsToNat (bl.take 6) :: BitStream.chunks 6 (bl.drop 6) := by
        conv_lhs => rw [BitStream.chunks]
        rw [dif_pos ⟨by norm_num, h6⟩]
      have hr : BitStream.chunksRem 6 bl = BitStream.chunksRem 6 (bl.drop 6) := by
        conv_lhs => rw [BitStream.chunksRem]
        rw [dif_pos ⟨by norm_num, h6⟩]
      rw [hrec, hc, hr]
    · rw [extractChunks, dif_neg h6, BitStream.chunks, dif_neg (by omega),
        BitStream.chunksRem, dif_neg (by omega)]

theorem extractChunks_spec (bl : List Bool) (h64 : bl.length ≤ 64) :
    extractChunks (BitStream.bitsToNat bl) bl.length =
      (BitStream.chunks 6 bl,
        BitStream.bitsToNat (BitStream.chunksRem 6 bl),
        (BitStream.chunksRem 6 bl).length) :=
  extractChunks_spec_aux bl.length bl rfl h64

theorem extractBytes_spec_aux :
    ∀ n (bl : List Bool), bl.length = n → bl.length ≤ 64 →
      extractBytes (BitStream.bitsToNat bl) bl.length =
        (BitStream.chunks 8 bl,
          BitStream.bitsToNat (BitStream.chunksRem 8 bl),
          (BitStream.chunksRem 8 bl).length) := by
  intro n
  induction n using Nat.strong_induction_on with
  | _ n ih =>
    intro bl hbl h64
    by_cases h8 : 8 ≤ bl.length
    · have hm : (bl.drop 8).length = bl.length - 8 := List.length_drop 8 bl
      have htd := bitsToNat_take_div 8 bl h8
      have hdm := bitsToNat_drop_mod 8 bl h8
      have htlt : BitStream.bitsToNat (bl.take 8) < 2 ^ 8 := bitsToNat_take_lt 8 bl h8
      rw [extractBytes, dif_pos h8]
      have hchunk : (BitStream.bitsToNat bl >>> (bl.length - 8)) % 256 =
          BitStream.bitsToNat (bl.take 8) := by
        rw [htd, Nat.mod_eq_of_lt (by exact htlt)]
      have hbuf : (if bl.length - 8 = 0 then 0
          else BitStream.bitsToNat bl &&& (((1 <<< (bl.length - 8)) % 2 ^ 64) - 1)) =
          BitStream.bitsToNat (bl.drop 8) := by
        by_cases hz : bl.length - 8 = 0
        · rw [if_pos hz]
          have : bl.drop 8 = [] := List.length_eq_zero.mp (by omega)
          rw [this]
          rfl
        · rw [if_neg hz]
          have hsh : (1 : Nat) <<< (bl.length - 8) = 2 ^ (bl.length - 8) := by
            rw [Nat.shiftLeft_eq, one_mul]
          have hlt64 : (2 : Nat) ^ (bl.length - 8) < 2 ^ 64 :=
            Nat.pow_lt_pow_right (by norm_num) (by omega)
          rw [hsh, Nat.mod_eq_of_lt hlt64, Nat.and_pow_two_sub_one_eq_mod, hdm]
      simp only [hchunk, hbuf]
      have hrec := ih (bl.drop 8).length (by omega) (bl.drop 8) rfl (by omega)
      rw [hm] at hrec
      have hc : BitStream.chunks 8 bl =
          BitStream.bitsToNat (bl.take 8) :: BitStream.chunks 8 (bl.drop 8) := by
        conv_lhs => rw [BitStream.chunks]
        rw [dif_pos ⟨by norm_num, h8⟩]
      have hr : BitStream.chunksRem 8 bl = BitStream.chunksRem 8 (bl.drop 8) := by
        conv_lhs => rw [BitStream.chunksRem]
        rw [dif_pos ⟨by norm_num, h8⟩]
      rw [hrec, hc, hr]
    · rw [extractBytes, dif_neg h8, BitStream.chunks, dif_neg (by omega),
        BitStream.chunksRem, dif_neg (by omega)]

theorem extractBytes_spec (bl : List Bool) (h64 : bl.length ≤ 64) :
    extractBytes (BitStream.bitsToNat bl) bl.length =
      (BitStream.chunks 8 bl,
        BitStream.bitsToNat (BitStream.chunksRem 8 bl),
        (BitStream.chunksRem 8 bl).length) :=
  extractBytes_spec_aux bl.length bl rfl h64

theorem writeBoostChunks_spec :
    ∀ (bs : List Nat) (rem : List Bool), rem.length ≤ 5 → (∀ b ∈ bs, b < 256) →
      writeBoostChunks bs (BitStream.bitsToNat rem, rem.length) =
        (BitStream.chunks 6 (rem ++ bytesBits bs),
          BitStream.bitsToNat (BitStream.chunksRem 6 (rem ++ bytesBits bs)),
          (BitStream.chunksRem 6 (rem ++ bytesBits bs)).length) := by
  intro bs
  induction bs with
  | nil =>
    intro rem hrem _
    have h1 : bytesBits ([] : List Nat) = [] := rfl
    rw [h1, List.append_nil]
    have hc : BitStream.chunks 6 rem = [] := by
      rw [BitStream.chunks, dif_neg (by omega)]
    have hr : BitStream.chunksRem 6 rem = rem := by
      rw [BitStream.chunksRem, dif_neg (by omega)]
    rw [hc, hr]
    rfl
  | cons b bs ih =>
    intro rem hrem hlt
    have hb : b < 2 ^ 8 := hlt b (List.mem_cons_self b bs)
    have hbs : ∀ x ∈ bs, x < 256 := fun x hx => hlt x (List.mem_cons_of_mem _ hx)
    have hLlen : (rem ++ BitStream.natBits 8 b).length = rem.length + 8 := by
      simp [BitStream.natBits_length]
    have hpush : boostPushByte (BitStream.bitsToNat rem, rem.length) b =
        extractChunks (BitStream.bitsToNat (rem ++ BitStream.natBits 8 b))
          (rem ++ BitStream.natBits 8 b).length := by
      unfold boostPushByte
      have hshift : BitStream.bitsToNat rem <<< 8 = BitStream.bitsToNat rem * 2 ^ 8 :=
        Nat.shiftLeft_eq _ _
      have hlt13 : BitStream.bitsToNat rem <<< 8 < 2 ^ 64 := by
        rw [hshift]
        have h1 := BitStream.bitsToNat_lt rem
        have h2 : (2 : Nat) ^ rem.length ≤ 2 ^ 5 :=
          Nat.pow_le_pow_right (by norm_num) hrem
        calc BitStream.bitsToNat rem * 2 ^ 8 < 2 ^ 5 * 2 ^ 8 :=
              Nat.mul_lt_mul_of_lt_of_le (lt_of_lt_of_le h1 h2) (le_refl _) (by norm_num)
          _ ≤ 2 ^ 64 := by norm_num
      have hval : BitStream.bitsToNat (rem ++ BitStream.natBits 8 b) =
          2 ^ 8 * BitStream.bitsToNat rem + b := by
        rw [BitStream.bitsToNat_append, BitStream.natBits_length,
          BitStream.bitsToNat_natBits_of_lt hb, Nat.mul_comm]
      rw [Nat.mod_eq_of_lt hlt13, BitStream.shiftLeft_or_eq_add hb, ← hval, ← hLlen]
    simp only [writeBoostChunks]
    rw [hpush, extractChunks_spec _ (by omega)]
    have hR1 : (BitStream.chunksRem 6 (rem ++ BitStream.natBits 8 b)).length ≤ 5 := by
      have := BitStream.chunksRem_length_lt 6 (by norm_num) (rem ++ BitStream.natBits 8 b)
      omega
    rw [ih _ hR1 hbs]
    have hbb : bytesBits (b :: bs) = BitStream.natBits 8 b ++ bytesBits bs := rfl
    rw [hbb, ← List.append_assoc, BitStream.chunks_append 6 (rem ++ BitStream.natBits 8 b),
      BitStream.chunksRem_append 6 (rem ++ BitStream.natBits 8 b)]

theorem readBoostRaw_spec (ascii : Bool) :
    ∀ (cs : List Nat) (rem : List Bool), rem.length ≤ 7 → (∀ c ∈ cs, c < 64) →
      readBoostRaw ascii (cs.map (packBoostByte ascii)) (BitStream.bitsToNat rem, rem.length) =
        (BitStream.chunks 8 (rem ++ chunkBits cs),
          BitStream.bitsToNat (BitStream.chunksRem 8 (rem ++ chunkBits cs)),
          (BitStream.chunksRem 8 (rem ++ chunkBits cs)).length) := by
  intro cs
  induction cs with
  | nil =>
    intro rem hrem _
    have h1 : chunkBits ([] : List Nat) = [] := rfl
    rw [h1, List.append_nil]
    have hc : BitStream.chunks 8 rem = [] := by
      rw [BitStream.chunks, dif_neg (by omega)]
    have hr : BitStream.chunksRem 8 rem = rem := by
      rw [BitStream.chunksRem, dif_neg (by omega)]
    rw [hc, hr]
    rfl
  | cons c cs ih =>
    intro rem hrem hlt
    have hc64 : c < 64 := hlt c (List.mem_cons_self c cs)
    have hcs : ∀ x ∈ cs, x < 64 := fun x hx => hlt x (List.mem_cons_of_mem _ hx)
    have hfacts := packBoost_facts_small ascii c (List.mem_range.mpr hc64)
    have hc6 : c < 2 ^ 6 := hc64
    have hLlen : (rem ++ BitStream.natBits 6 c).length = rem.length + 6 := by
      simp [BitStream.natBits_length]
    have hstep : readBoostStep ascii (BitStream.bitsToNat rem, rem.length)
          (packBoostByte ascii c) =
        extractBytes (BitStream.bitsToNat (rem ++ BitStream.natBits 6 c))
          (rem ++ BitStream.natBits 6 c).length := by
      unfold readBoostStep
      rw [if_neg (by rw [hfacts.1]; exact Bool.false_ne_true), hfacts.2]
      have hshift : BitStream.bitsToNat rem <<< 6 = BitStream.bitsToNat rem * 2 ^ 6 :=
        Nat.shiftLeft_eq _ _
      have hlt13 : BitStream.bitsToNat rem <<< 6 < 2 ^ 64 := by
        rw [hshift]
        have h1 := BitStream.bitsToNat_lt rem
        have h2 : (2 : Nat) ^ rem.length ≤ 2 ^ 7 :=
          Nat.pow_le_pow_right (by norm_num) hrem
        calc BitStream.bitsToNat rem * 2 ^ 6 < 2 ^ 7 * 2 ^ 6 :=
              Nat.mul_lt_mul_of_lt_of_le (lt_of_lt_of_le h1 h2) (le_refl _) (by norm_num)
          _ ≤ 2 ^ 64 := by norm_num
      have hval : BitStream.bitsToNat (rem ++ BitStream.natBits 6 c) =
          2 ^ 6 * BitStream.bitsToNat rem + c := by
        rw [BitStream.bitsToNat_append, BitStream.natBits_length,
          BitStream.bitsToNat_natBits_of_lt hc6, Nat.mul_comm]
      rw [Nat.mod_eq_of_lt hlt13, BitStream.shiftLeft_or_eq_add hc6, ← hval, ← hLlen]
    simp only [List.map_cons, readBoostRaw]
    rw [hstep, extractBytes_spec _ (by omega)]
    have hR1 : (BitStream.chunksRem 8 (rem ++ BitStream.natBits 6 c)).length ≤ 7 := by
      have := BitStream.chunksRem_length_lt 8 (by norm_num) (rem ++ BitStream.natBits 6 c)
      omega
    rw [ih _ hR1 hcs]
    have hbb : chunkBits (c :: cs) = BitStream.natBits 6 c ++ chunkBits cs := rfl
    rw [hbb, ← List.append_assoc, BitStream.chunks_append 8 (rem ++ BitStream.natBits 6 c),
      BitStream.chunksRem_append 8 (rem ++ BitStream.natBits 6 c)]

/-! ### Padding is transparent to the boost read path -/

theorem padAt_mem (pool : List Nat) (hne : pool ≠ []) (o : Option Nat) :
    ∀ x ∈ padAt pool o, x ∈ pool := by
  intro x hx
  match o with
  | none => simp [padAt] at hx
  | some i =>
    simp only [padAt, List.mem_singleton] at hx
    subst hx
    have hlen : i % pool.length < pool.length :=
      Nat.mod_lt _ (List.length_pos.mpr hne)
    rw [List.getD_eq_getElem pool 0 hlen]
    exact List.getElem_mem hlen

theorem padAt_filter (ascii : Bool) (pool : List Nat) (hne : pool ≠ [])
    (hpad : ∀ x ∈ pool, isPaddingByte ascii x = true) (o : Option Nat) :
    (padAt pool o).filter (fun b => !(isPaddingByte ascii b)) = [] := by
  match o with
  | none => rfl
  | some i =>
    have hx : pool.getD (i % pool.length) 0 ∈ pool :=
      padAt_mem pool hne (some i) _ (by simp [padAt])
    have hp := hpad _ hx
    simp only [padAt]
    rw [List.filter_cons_of_neg
        (by simp only [List.getD, List.get?_eq_getElem?] at hp; simp [hp]),
      List.filter_nil]

theorem emitCarriers_filter (ascii : Bool) (pool : List Nat) (hne : pool ≠ [])
    (hpad : ∀ x ∈ pool, isPaddingByte ascii x = true) :
    ∀ (cs : List Nat) (os : List (Option Nat)), (∀ c ∈ cs, c < 64) →
      (emitCarriers ascii pool cs os).filter (fun b => !(isPaddingByte ascii b)) =
        cs.map (packBoostByte ascii) := by
  intro cs
  induction cs with
  | nil => intro os _; rfl
  | cons c cs ih =>
    intro os hlt
    have hc64 : c < 64 := hlt c (List.mem_cons_self c cs)
    have hfacts := packBoost_facts_small ascii c (List.mem_range.mpr hc64)
    simp only [emitCarriers, List.filter_append, List.filter_cons,
      padAt_filter ascii pool hne hpad, hfacts.1]
    rw [ih os.tail (fun x hx => hlt x (List.mem_cons_of_mem _ hx))]
    simp

theorem readBoostRaw_filter (ascii : Bool) :
    ∀ (input : List Nat) (st : Nat × Nat),
      readBoostRaw ascii input st =
        readBoostRaw ascii (input.filter (fun b => !(isPaddingByte ascii b))) st := by
  intro input
  induction input with
  | nil => intro st; rfl
  | cons b bs ih =>
    intro st
    by_cases hb : isPaddingByte ascii b
    · have hstep : readBoostStep ascii st b = ([], st) := by
        unfold readBoostStep
        rw [if_pos hb]
      simp only [readBoostRaw, hstep, List.nil_append]
      rw [List.filter_cons_of_neg (by simp [hb]), ih]
    · simp only [readBoostRaw]
      rw [List.filter_cons_of_pos (by simp [hb])]
      simp only [readBoostRaw]
      rw [ih]

/-- Regrouping a byte stream's bits into 8-bit groups recovers the bytes;
trailing bits are handled separately. -/
theorem chunks8_bytesBits (bs : List Nat) (hbs : ∀ b ∈ bs, b < 256) (t : List Bool) :
    BitStream.chunks 8 (bytesBits bs ++ t) = bs ++ BitStream.chunks 8 t ∧
      BitStream.chunksRem 8 (bytesBits bs ++ t) = BitStream.chunksRem 8 t := by
  induction bs with
  | nil => simp [bytesBits]
  | cons b bs ih =>
    have hb : b < 2 ^ 8 := hbs b (List.mem_cons_self b bs)
    have hbs' : ∀ x ∈ bs, x < 256 := fun x hx => hbs x (List.mem_cons_of_mem _ hx)
    have hbb : bytesBits (b :: bs) = BitStream.natBits 8 b ++ bytesBits bs := rfl
    have hlen8 : (BitStream.natBits 8 b).length = 8 := BitStream.natBits_length 8 b
    have hcond : 0 < 8 ∧ 8 ≤ (BitStream.natBits 8 b ++ (bytesBits bs ++ t)).length := by
      constructor
      · norm_num
      · rw [List.length_append, hlen8]
        omega
    have htake : (BitStream.natBits 8 b ++ (bytesBits bs ++ t)).take 8 =
        BitStream.natBits 8 b := by
      rw [List.take_append_of_le_length (by omega), List.take_of_length_le (by omega)]
    have hdrop : (BitStream.natBits 8 b ++ (bytesBits bs ++ t)).drop 8 =
        bytesBits bs ++ t := by
      rw [List.drop_append_of_le_length (by omega),
        List.drop_eq_nil_of_le (by omega), List.nil_append]
    constructor
    · rw [hbb, List.append_assoc]
      conv_lhs => rw [BitStream.chunks]
      rw [dif_pos hcond, htake, hdrop, (ih hbs').1,
        BitStream.bitsToNat_natBits_of_lt hb, List.cons_append]
    · rw [hbb, List.append_assoc]
      conv_lhs => rw [BitStream.chunksRem]
      rw [dif_pos hcond, hdrop, (ih hbs').2]

/-- C1: boost round-trip.  For every payload `p`, both table modes, any
padding-rate behaviour (modelled by quantifying over every padding-oracle
outcome), if the write side and the read side run on the same AES-CTR
keystream (same key, same 16-byte IV) and the same mode flag, then the bytes
produced by `writeBoost(p)` followed by the close-time `flushBoostPadding`,
fed into `readBoost`, deliver exactly the `len(p)` bytes of `p` in order. -/
theorem boost_roundtrip (ascii : Bool) (ks : Nat → Nat) (pool : List Nat)
    (hne : pool ≠ []) (hpad : ∀ x ∈ pool, isPaddingByte ascii x = true)
    (hks : ∀ i, ks i < 256) (p : List Nat) (hp : ∀ b ∈ p, b < 256)
    (os : List (Option Nat)) (o1 o2 : Option Nat) :
    readBoostOut ascii ks
      ((writeBoost ascii pool ks p os).1 ++
        flushBoostPadding ascii pool (writeBoost ascii pool ks p os).2 o1 o2) = p := by
  have henc : ∀ b ∈ xorKs ks 0 p, b < 256 := xorKs_lt ks hks 0 p hp
  have hW := writeBoostChunks_spec (xorKs ks 0 p) [] (by simp) henc
  rw [List.nil_append] at hW
  have h00 : ((BitStream.bitsToNat [], ([] : List Bool).length) : Nat × Nat) = (0, 0) := rfl
  rw [h00] at hW
  have hcs64 : ∀ c ∈ BitStream.chunks 6 (bytesBits (xorKs ks 0 p)), c < 64 :=
    BitStream.chunks_lt 6 _
  have hRlt : (BitStream.chunksRem 6 (bytesBits (xorKs ks 0 p))).length < 6 :=
    BitStream.chunksRem_length_lt 6 (by norm_num) _
  have hw1 : (writeBoost ascii pool ks p os).1 =
      emitCarriers ascii pool (BitStream.chunks 6 (bytesBits (xorKs ks 0 p))) os ++
        padAt pool
          ((os.drop (BitStream.chunks 6 (bytesBits (xorKs ks 0 p))).length).headD none) := by
    unfold writeBoost
    rw [hW]
  have hw2 : (writeBoost ascii pool ks p os).2 =
      (BitStream.bitsToNat (BitStream.chunksRem 6 (bytesBits (xorKs ks 0 p))),
        (BitStream.chunksRem 6 (bytesBits (xorKs ks 0 p))).length) := by
    unfold writeBoost
    rw [hW]
  have hconcat := BitStream.chunks_concat 6 (by norm_num) (bytesBits (xorKs ks 0 p))
  rw [hw1, hw2]
  unfold readBoostOut
  rw [readBoostRaw_filter]
  by_cases hR0 : (BitStream.chunksRem 6 (bytesBits (xorKs ks 0 p))).length = 0
  · have hRnil : BitStream.chunksRem 6 (bytesBits (xorKs ks 0 p)) = [] :=
      List.length_eq_zero.mp hR0
    have hflush : flushBoostPadding ascii pool
        (BitStream.bitsToNat (BitStream.chunksRem 6 (bytesBits (xorKs ks 0 p))),
          (BitStream.chunksRem 6 (bytesBits (xorKs ks 0 p))).length) o1 o2 = [] := by
      unfold flushBoostPadding
      rw [if_pos hR0]
    rw [hflush, List.append_nil, List.filter_append,
      emitCarriers_filter ascii pool hne hpad _ os hcs64,
      padAt_filter ascii pool hne hpad, List.append_nil]
    have hRaw := readBoostRaw_spec ascii (BitStream.chunks 6 (bytesBits (xorKs ks 0 p)))
      [] (by simp) hcs64
    rw [List.nil_append, h00] at hRaw
    rw [hRaw]
    have hcb : chunkBits (BitStream.chunks 6 (bytesBits (xorKs ks 0 p))) =
        bytesBits (xorKs ks 0 p) := by
      unfold chunkBits
      rw [hRnil, List.append_nil] at hconcat
      exact hconcat
    have h8 := chunks8_bytesBits (xorKs ks 0 p) henc []
    rw [List.append_nil] at h8
    have hc8nil : BitStream.chunks 8 ([] : List Bool) = [] := by
      rw [BitStream.chunks, dif_neg (by simp)]
    rw [hcb, h8.1, hc8nil, List.append_nil, xorKs_xorKs]
  · have hk : 0 < 6 - (BitStream.chunksRem 6 (bytesBits (xorKs ks 0 p))).length := by omega
    have hv : ((BitStream.bitsToNat (BitStream.chunksRem 6 (bytesBits (xorKs ks 0 p)))
          <<< (6 - (BitStream.chunksRem 6 (bytesBits (xorKs ks 0 p))).length)) % 2 ^ 64)
          &&& 0x3F =
        BitStream.bitsToNat (BitStream.chunksRem 6 (bytesBits (xorKs ks 0 p)) ++
          List.replicate (6 - (BitStream.chunksRem 6 (bytesBits (xorKs ks 0 p))).length)
            false) := by
      rw [Nat.shiftLeft_eq, BitStream.bitsToNat_append, BitStream.bitsToNat_replicate_false,
        List.length_replicate, Nat.add_zero]
      have hlt6 : BitStream.bitsToNat (BitStream.chunksRem 6 (bytesBits (xorKs ks 0 p))) *
          2 ^ (6 - (BitStream.chunksRem 6 (bytesBits (xorKs ks 0 p))).length) < 2 ^ 6 := by
        have h1 := BitStream.bitsToNat_lt (BitStream.chunksRem 6 (bytesBits (xorKs ks 0 p)))
        calc BitStream.bitsToNat (BitStream.chunksRem 6 (bytesBits (xorKs ks 0 p))) *
              2 ^ (6 - (BitStream.chunksRem 6 (bytesBits (xorKs ks 0 p))).length)
            < 2 ^ (BitStream.chunksRem 6 (bytesBits (xorKs ks 0 p))).length *
              2 ^ (6 - (BitStream.chunksRem 6 (bytesBits (xorKs ks 0 p))).length) :=
              Nat.mul_lt_mul_of_lt_of_le h1 (le_refl _) (Nat.two_pow_pos _)
          _ = 2 ^ 6 := by
              rw [← pow_add]
              congr 1
              omega
      rw [Nat.mod_eq_of_lt (lt_trans hlt6 (by norm_num))]
      have h63 : (0x3F : Nat) = 2 ^ 6 - 1 := by norm_num
      rw [h63, Nat.and_pow_two_sub_one_of_lt_two_pow hlt6]
    have hflush : flushBoostPadding ascii pool
        (BitStream.bitsToNat (BitStream.chunksRem 6 (bytesBits (xorKs ks 0 p))),
          (BitStream.chunksRem 6 (bytesBits (xorKs ks 0 p))).length) o1 o2 =
        padAt pool o1 ++
          packBoostByte ascii
            (BitStream.bitsToNat (BitStream.chunksRem 6 (bytesBits (xorKs ks 0 p)) ++
              List.replicate
                (6 - (BitStream.chunksRem 6 (bytesBits (xorKs ks 0 p))).length) false)) ::
            padAt pool o2 := by
      unfold flushBoostPadding
      rw [if_neg hR0, hv]
    have hRp6 : (BitStream.chunksRem 6 (bytesBits (xorKs ks 0 p)) ++
        List.replicate (6 - (BitStream.chunksRem 6 (bytesBits (xorKs ks 0 p))).length)
          false).length = 6 := by
      rw [List.length_append, List.length_replicate]
      omega
    have hv64 : BitStream.bitsToNat (BitStream.chunksRem 6 (bytesBits (xorKs ks 0 p)) ++
        List.replicate (6 - (BitStream.chunksRem 6 (bytesBits (xorKs ks 0 p))).length)
          false) < 64 := by
      have h1 := BitStream.bitsToNat_lt (BitStream.chunksRem 6 (bytesBits (xorKs ks 0 p)) ++
        List.replicate (6 - (BitStream.chunksRem 6 (bytesBits (xorKs ks 0 p))).length) false)
      rw [hRp6] at h1
      exact h1
    have hvfacts := packBoost_facts_small ascii _ (List.mem_range.mpr hv64)
    rw [hflush, List.filter_append, List.filter_append,
      emitCarriers_filter ascii pool hne hpad _ os hcs64,
      padAt_filter ascii pool hne hpad, List.append_nil, List.filter_append,
      padAt_filter ascii pool hne hpad, List.nil_append, List.filter_cons_of_pos
        (by simp [hvfacts.1]), padAt_filter ascii pool hne hpad]
    rw [show (BitStream.chunks 6 (bytesBits (xorKs ks 0 p))).map (packBoostByte ascii) ++
        [packBoostByte ascii
          (BitStream.bitsToNat (BitStream.chunksRem 6 (bytesBits (xorKs ks 0 p)) ++
            List.replicate (6 - (BitStream.chunksRem 6 (bytesBits (xorKs ks 0 p))).length)
              false))] =
        (BitStream.chunks 6 (bytesBits (xorKs ks 0 p)) ++
          [BitStream.bitsToNat (BitStream.chunksRem 6 (bytesBits (xorKs ks 0 p)) ++
            List.replicate (6 - (BitStream.chunksRem 6 (bytesBits (xorKs ks 0 p))).length)
              false)]).map (packBoostByte ascii) from by simp]
    have hall64 : ∀ c ∈ BitStream.chunks 6 (bytesBits (xorKs ks 0 p)) ++
        [BitStream.bitsToNat (BitStream.chunksRem 6 (bytesBits (xorKs ks 0 p)) ++
          List.replicate (6 - (BitStream.chunksRem 6 (bytesBits (xorKs ks 0 p))).length)
            false)], c < 64 := by
      intro c hc
      rcases List.mem_append.mp hc with hc | hc
      · exact hcs64 c hc
      · rw [List.mem_singleton] at hc
        subst hc
        exact hv64
    have hRaw := readBoostRaw_spec ascii _ [] (by simp) hall64
    rw [List.nil_append, h00] at hRaw
    rw [hRaw]
    have hcb : chunkBits (BitStream.chunks 6 (bytesBits (xorKs ks 0 p)) ++
        [BitStream.bitsToNat (BitStream.chunksRem 6 (bytesBits (xorKs ks 0 p)) ++
          List.replicate (6 - (BitStream.chunksRem 6 (bytesBits (xorKs ks 0 p))).length)
            false)]) =
        bytesBits (xorKs ks 0 p) ++
          List.replicate (6 - (BitStream.chunksRem 6 (bytesBits (xorKs ks 0 p))).length)
            false := by
      unfold chunkBits
      rw [List.foldr_append, List.foldr_cons, List.foldr_nil,
        BitStream.foldr_natBits_init]
      have hnb : BitStream.natBits 6
          (BitStream.bitsToNat (BitStream.chunksRem 6 (bytesBits (xorKs ks 0 p)) ++
            List.replicate (6 - (BitStream.chunksRem 6 (bytesBits (xorKs ks 0 p))).length)
              false)) =
          BitStream.chunksRem 6 (bytesBits (xorKs ks 0 p)) ++
            List.replicate (6 - (BitStream.chunksRem 6 (bytesBits (xorKs ks 0 p))).length)
              false := by
        have hnb' := BitStream.natBits_bitsToNat
          (BitStream.chunksRem 6 (bytesBits (xorKs ks 0 p)) ++
            List.replicate (6 - (BitStream.chunksRem 6 (bytesBits (xorKs ks 0 p))).length)
              false)
        rw [hRp6] at hnb'
        exact hnb'
      rw [hnb, List.append_nil, ← List.append_assoc]
      unfold chunkBits at hconcat
      rw [hconcat]
    rw [hcb]
    have h8 := chunks8_bytesBits (xorKs ks 0 p) henc
      (List.replicate (6 - (BitStream.chunksRem 6 (bytesBits (xorKs ks 0 p))).length) false)
    have hc8nil : BitStream.chunks 8
        (List.replicate (6 - (BitStream.chunksRem 6 (bytesBits (xorKs ks 0 p))).length)
          false) = [] := by
      rw [BitStream.chunks, dif_neg (by rw [List.length_replicate]; omega)]
    rw [h8.1, hc8nil, List.append_nil, xorKs_xorKs]

/-! ## Plain puzzle write path (`conn.go`, `Conn.Write`, boost disabled)

The per-byte randomness of the write loop — the padding coin before the
codeword, the codeword pick `puzzles[rng.Intn(len(puzzles))]`, the three
Fisher-Yates swaps of `rng.Shuffle(4, …)`, and the padding coin before each
of the four emitted hint bytes — is captured in one `WriteRand` record per
plaintext byte, consumed in the order the source consults the RNG. -/

/-- Per-plaintext-byte random choices of `Conn.Write`. -/
structure WriteRand where
  padBefore : Option Nat
  cw : Nat
  s3 : Nat
  s2 : Nat
  s1 : Nat
  g1 : Option Nat
  g2 : Option Nat
  g3 : Option Nat
  g4 : Option Nat

instance : Inhabited WriteRand := ⟨⟨none, 0, 0, 0, 0, none, none, none, none⟩⟩

/-- The swap `perm[i], perm[j] = perm[j], perm[i]`. -/
def swapIdx (l : List Nat) (i j : Nat) : List Nat :=
  (l.set i (l.getD j 0)).set j (l.getD i 0)

/-- Model of `rng.Shuffle(4, swap)` over `[0,1,2,3]`: Fisher-Yates swaps at
`i = 3, 2, 1` with `j = rng.Intn(i+1)` modelled as `s % (i+1)`. -/
def shufflePerm (s3 s2 s1 : Nat) : List Nat :=
  swapIdx (swapIdx (swapIdx [0, 1, 2, 3] 3 (s3 % 4)) 2 (s2 % 3)) 1 (s1 % 2)

/-- The pick `puzzles[rng.Intn(len(puzzles))]` for `puzzles := table.EncodeTable[b]`. -/
def encodePuzzle (tbl : Table) (b : Nat) (cw : Nat) : List Nat :=
  (tbl.encodeTable b).getD (cw % (tbl.encodeTable b).length) [0, 0, 0, 0]

def gapsOf (r : WriteRand) : List (Option Nat) :=
  [r.g1, r.g2, r.g3, r.g4]

/-- The `for _, idx := range perm` loop body of `Conn.Write`: one padding
opportunity, then the hint byte `puzzle[idx]`. -/
def emitHints (pool puzzle : List Nat) : List Nat → List (Option Nat) → List Nat
  | [], _ => []
  | idx :: idxs, gs =>
    padAt pool (gs.headD none) ++ puzzle.getD idx 0 :: emitHints pool puzzle idxs gs.tail

/-- The per-byte emission of `Conn.Write`: padding opportunity before the
codeword, then the four shuffled hint bytes each preceded by its own padding
opportunity. -/
def writeByteOut (tbl : Table) (b : Nat) (r : WriteRand) : List Nat :=
  padAt tbl.paddingPool r.padBefore ++
    emitHints tbl.paddingPool (encodePuzzle tbl b r.cw)
      (shufflePerm r.s3 r.s2 r.s1) (gapsOf r)

def sudokuWriteOut (tbl : Table) : List Nat → List WriteRand → List Nat
  | [], _ => []
  | b :: bs, rs =>
    writeByteOut tbl b (rs.headD default) ++ sudokuWriteOut tbl bs rs.tail

/-- Model of `Conn.Write(p)` with boost disabled: returns the caller-visible count
`len(p)` and the bytes handed to the transport (empty `p` returns
immediately, without the trailing padding coin). -/
def sudokuWrite (tbl : Table) (p : List Nat) (rs : List WriteRand)
    (trail : Option Nat) : Nat × List Nat :=
  if p = [] then (0, [])
  else (p.length, sudokuWriteOut tbl p rs ++ padAt tbl.paddingPool trail)

/-- The `i`-th hint byte under the claim's emission order: the codeword byte
at shuffled position `i`. -/
def specHint (tbl : Table) (b : Nat) (r : WriteRand) (i : Nat) : Nat :=
  (encodePuzzle tbl b r.cw).getD ((shufflePerm r.s3 r.s2 r.s1).getD i 0) 0

/-- Per-byte emission as the claim words it: one padding opportunity before
the codeword, one in each of the three gaps between its 4 bytes, and one
after its last byte. -/
def specByteOut (tbl : Table) (b : Nat) (r : WriteRand) : List Nat :=
  padAt tbl.paddingPool r.padBefore ++
    specHint tbl b r 0 :: padAt tbl.paddingPool r.g1 ++
    specHint tbl b r 1 :: padAt tbl.paddingPool r.g2 ++
    specHint tbl b r 2 :: padAt tbl.paddingPool r.g3 ++
    specHint tbl b r 3 :: padAt tbl.paddingPool r.g4

def specWriteOut (tbl : Table) : List Nat → List WriteRand → List Nat
  | [], _ => []
  | b :: bs, rs =>
    specByteOut tbl b (rs.headD default) ++ specWriteOut tbl bs rs.tail

/-- C2's claimed emission: per-byte pattern of `specByteOut`, plus one
additional trailing padding coin after the final codeword of the buffer. -/
def specWrite (tbl : Table) (p : List Nat) (rs : List WriteRand)
    (trail : Option Nat) : Nat × List Nat :=
  if p = [] then (0, [])
  else (p.length, specWriteOut tbl p rs ++ padAt tbl.paddingPool trail)

/-- Holds when `out` is an output the claimed emission pattern can produce. -/
def specProducible (tbl : Table) (p out : List Nat) : Prop :=
  ∃ rs trail, (specWrite tbl p rs trail).2 = out

/-- Per-byte emission as amended: a padding opportunity before the codeword
and, independently, one before each of its 4 bytes; none after the last
byte. -/
def amendedByteOut (tbl : Table) (b : Nat) (r : WriteRand) : List Nat :=
  padAt tbl.paddingPool r.padBefore ++
    padAt tbl.paddingPool r.g1 ++ specHint tbl b r 0 ::
    padAt tbl.paddingPool r.g2 ++ specHint tbl b r 1 ::
    padAt tbl.paddingPool r.g3 ++ specHint tbl b r 2 ::
    padAt tbl.paddingPool r.g4 ++ [specHint tbl b r 3]

def amendedWriteOut (tbl : Table) : List Nat → List WriteRand → List Nat
  | [], _ => []
  | b :: bs, rs =>
    amendedByteOut tbl b (rs.headD default) ++ amendedWriteOut tbl bs rs.tail

/-- The amended emission contract: same codeword choice and shuffle, padding
coins before the codeword and before each of its 4 bytes, one trailing coin
after the final codeword. -/
def amendedWrite (tbl : Table) (p : List Nat) (rs : List WriteRand)
    (trail : Option Nat) : Nat × List Nat :=
  if p = [] then (0, [])
  else (p.length, amendedWriteOut tbl p rs ++ padAt tbl.paddingPool trail)

theorem shufflePerm_length (s3 s2 s1 : Nat) : (shufflePerm s3 s2 s1).length = 4 := by
  simp [shufflePerm, swapIdx]

theorem list_length_four {l : List Nat} (h : l.length = 4) :
    ∃ a b c d, l = [a, b, c, d] := by
  match l, h with
  | [a, b, c, d], _ => exact ⟨a, b, c, d, rfl⟩

theorem writeByteOut_amended (tbl : Table) (b : Nat) (r : WriteRand) :
    writeByteOut tbl b r = amendedByteOut tbl b r := by
  obtain ⟨a, b2, c, d, hperm⟩ := list_length_four (shufflePerm_length r.s3 r.s2 r.s1)
  rw [writeByteOut, amendedByteOut]
  simp only [specHint, hperm, gapsOf, emitHints, List.headD, List.tail]
  simp [List.getD]

/-- C2 (amended): `Conn.Write` with boost disabled returns `n = len(p)` and
emits, for each plaintext byte in order, a chosen codeword's 4 bytes in a
shuffled order, with independent padding opportunities before the codeword
and before each of its 4 bytes (none after the codeword's last byte), plus a
single trailing padding opportunity after the final codeword. -/
theorem sudokuWrite_amended (tbl : Table) (p : List Nat) (rs : List WriteRand)
    (trail : Option Nat) :
    sudokuWrite tbl p rs trail = amendedWrite tbl p rs trail ∧
      (sudokuWrite tbl p rs trail).1 = (if p = [] then 0 else p.length) := by
  have hout : ∀ (q : List Nat) (rs' : List WriteRand),
      sudokuWriteOut tbl q rs' = amendedWriteOut tbl q rs' := by
    intro q
    induction q with
    | nil => intro rs'; rfl
    | cons b bs ih =>
      intro rs'
      rw [sudokuWriteOut, amendedWriteOut, writeByteOut_amended, ih]
  constructor
  · rw [sudokuWrite, amendedWrite, hout]
  · rw [sudokuWrite]
    by_cases hp : p = []
    · rw [if_pos hp, if_pos hp]
    · rw [if_neg hp, if_neg hp]

/-- The concrete admissible ASCII table used for the C2 counterexample:
every plaintext byte encodes to the single codeword `41 42 43 44`, and the
padding pool is `{0x20}` (codeword bytes have bit 6 set, the padding byte
has bit 6 clear, as the spec's classifier invariant requires). -/
def tableC2 : Table :=
  ⟨fun _ => [[0x41, 0x42, 0x43, 0x44]], [0x20], true⟩

theorem tableC2_wf : tableC2.WFPadding := by
  constructor
  · decide
  · decide

/-- Concrete `WriteRand` making both the before-codeword coin and the coin
before the first emitted hint byte fire. -/
def writeRandC2 : WriteRand :=
  ⟨some 0, 0, 0, 0, 0, some 0, none, none, none⟩

theorem specHint_tableC2_ne (b : Nat) (r : WriteRand) (i : Nat) :
    specHint tableC2 b r i ≠ 0x20 := by
  rw [specHint]
  have henc : encodePuzzle tableC2 b r.cw = [0x41, 0x42, 0x43, 0x44] := by
    rw [encodePuzzle]
    simp [tableC2, Nat.mod_one]
  rw [henc]
  have hne : ∀ n : Nat, ([0x41, 0x42, 0x43, 0x44] : List Nat).getD n 0 ≠ 0x20 := by
    intro n
    match n with
    | 0 => decide
    | 1 => decide
    | 2 => decide
    | 3 => decide
    | (m + 4) =>
      rw [List.getD_eq_default _ _ (by simp)]
      decide
  exact hne _

/-- C2 counterexample: at plaintext `[0]` there is a random outcome on which
`Conn.Write` emits two padding bytes immediately before the codeword's first
byte, an output the claimed emission pattern (at most one padding byte
before the first codeword byte) can never produce. -/
theorem sudokuWrite_claim_counterexample :
    (sudokuWrite tableC2 [0] [writeRandC2] none).2 =
      [0x20, 0x20, 0x42, 0x43, 0x44, 0x41] ∧
    ¬ specProducible tableC2 [0] [0x20, 0x20, 0x42, 0x43, 0x44, 0x41] := by
  constructor
  · rfl
  · rintro ⟨rs, trail, h⟩
    rw [specWrite, if_neg (by simp)] at h
    rw [specWriteOut, specWriteOut, List.append_nil] at h
    rcases hpb : (rs.headD default).padBefore with _ | i
    · rw [specByteOut, hpb] at h
      simp only [padAt, List.nil_append, List.cons_append] at h
      have := List.head_eq_of_cons_eq h
      exact specHint_tableC2_ne 0 (rs.headD default) 0 this
    · rw [specByteOut, hpb] at h
      simp only [padAt, List.cons_append, List.nil_append,
        List.singleton_append] at h
      have h2 := List.tail_eq_of_cons_eq h
      have := List.head_eq_of_cons_eq h2
      exact specHint_tableC2_ne 0 (rs.headD default) 0 this

/-- Witness for C1 at a concrete payload, ASCII mode, keystream `7`, a
one-byte padding pool, and concrete padding-oracle outcomes. -/
theorem boost_roundtrip_witness :
    readBoostOut true (fun _ => 7)
      ((writeBoost true [0x20] (fun _ => 7) [0xAB, 0xCD] [some 1, none, none]).1 ++
        flushBoostPadding true [0x20]
          (writeBoost true [0x20] (fun _ => 7) [0xAB, 0xCD] [some 1, none, none]).2
          (some 5) none) = [0xAB, 0xCD] :=
  boost_roundtrip true (fun _ => 7) [0x20] (by decide) (by decide)
    (fun i => by norm_num) [0xAB, 0xCD] (by decide) [some 1, none, none] (some 5) none

end Sudoku

namespace Tunnel

/-! ## Bandwidth monitor (`internal/tunnel` `BandwidthMonitor.Add`)

`time.Time` is modelled as `Int` (any fixed unit); `t.Before(u)` is `t < u`
and `now.Add(-windowDur)` is `now - windowDur`.  Go `int`/`int64` arithmetic
is far from overflow in any reachable state, so plain `Int` is used. -/

structure BandwidthMonitor where
  window : List (Int × Int)
  total : Int
  threshold : Int
  windowDur : Int
  triggered : Bool
  pendingTick : Bool

def NewBandwidthMonitor (thresholdBytes : Int) (window : Int) : BandwidthMonitor :=
  ⟨[], 0, thresholdBytes, window, false, false⟩

/-- The appended window before trimming. -/
def grownWindow (m : BandwidthMonitor) (now n : Int) : List (Int × Int) :=
  m.window ++ [(now, n)]

/-- The window after the stale-sample trim loop (`window[trim].t.Before(cutoff)`
drops a prefix). -/
def postWindow (m : BandwidthMonitor) (now n : Int) : List (Int × Int) :=
  (grownWindow m now n).dropWhile (fun s => decide (s.1 < now - m.windowDur))

/-- The rolling total after appending the sample and subtracting the trimmed
samples. -/
def postTotal (m : BandwidthMonitor) (now n : Int) : Int :=
  m.total + n -
    (((grownWindow m now n).takeWhile (fun s => decide (s.1 < now - m.windowDur))).map
      (fun s => s.2)).sum

/-- Model of `BandwidthMonitor.Add(n)` at wall-clock time `now`: append the sample,
trim the expired prefix, then apply the two-consecutive-admissions firing
rule.  Returns the `bool` result and the updated monitor. -/
def BandwidthMonitor.Add (m : BandwidthMonitor) (now : Int) (n : Int) :
    Bool × BandwidthMonitor :=
  if n ≤ 0 then (false, m)
  else if m.triggered then
    (false, ⟨postWindow m now n, postTotal m now n, m.threshold, m.windowDur,
      true, m.pendingTick⟩)
  else if m.threshold ≤ postTotal m now n then
    if m.pendingTick then
      (true, ⟨postWindow m now n, postTotal m now n, m.threshold, m.windowDur,
        true, m.pendingTick⟩)
    else
      (false, ⟨postWindow m now n, postTotal m now n, m.threshold, m.windowDur,
        false, true⟩)
  else
    (false, ⟨postWindow m now n, postTotal m now n, m.threshold, m.windowDur,
      false, false⟩)

/-- Run a sequence of `(now, n)` calls against a monitor, collecting the
results. -/
def runMonitor : BandwidthMonitor → List (Int × Int) → List Bool × BandwidthMonitor
  | m, [] => ([], m)
  | m, c :: cs =>
    ((m.Add c.1 c.2).1 :: (runMonitor (m.Add c.1 c.2).2 cs).1,
      (runMonitor (m.Add c.1 c.2).2 cs).2)

/-- The rolling-window total after each call (the monitor's `total` after
appending the sample and trimming expired samples). -/
def monitorTotals : BandwidthMonitor → List (Int × Int) → List Int
  | _, [] => []
  | m, c :: cs => (m.Add c.1 c.2).2.total :: monitorTotals (m.Add c.1 c.2).2 cs

theorem Add_triggered {m : BandwidthMonitor} (h : m.triggered = true)
    (now n : Int) : (m.Add now n).1 = false ∧ (m.Add now n).2.triggered = true := by
  rw [BandwidthMonitor.Add]
  by_cases hn : n ≤ 0
  · rw [if_pos hn]
    exact ⟨rfl, h⟩
  · rw [if_neg hn]
    simp [h]

theorem runMonitor_triggered :
    ∀ (calls : List (Int × Int)) (m : BandwidthMonitor), m.triggered = true →
      (runMonitor m calls).1 = List.replicate calls.length false := by
  intro calls
  induction calls with
  | nil => intro m _; rfl
  | cons c cs ih =>
    intro m h
    have hA := Add_triggered h c.1 c.2
    rw [runMonitor, hA.1, ih _ hA.2, List.length_cons, List.replicate_succ]

/-- The firing condition at index `k` of a run started in state `m`:
rolling total at or above threshold now, and either the previous admission's
rolling total was at or above threshold, or (for the very first call) the
monitor already carried `pendingTick`. -/
def fireCond (m : BandwidthMonitor) (calls : List (Int × Int)) : Nat → Prop
  | 0 => m.threshold ≤ (monitorTotals m calls).getD 0 0 ∧ m.pendingTick = true
  | k + 1 => m.threshold ≤ (monitorTotals m calls).getD (k + 1) 0 ∧
      m.threshold ≤ (monitorTotals m calls).getD k 0

theorem Add_preserves_threshold (m : BandwidthMonitor) (now n : Int) :
    (m.Add now n).2.threshold = m.threshold := by
  rw [BandwidthMonitor.Add]
  by_cases hn : n ≤ 0
  · rw [if_pos hn]
  · rw [if_neg hn]
    by_cases ht : m.triggered <;>
      by_cases hth : m.threshold ≤ postTotal m now n <;>
      by_cases hp : m.pendingTick <;> simp [ht, hth, hp]

theorem Add_fired_triggered {m : BandwidthMonitor} {now n : Int}
    (h : (m.Add now n).1 = true) : (m.Add now n).2.triggered = true := by
  rw [BandwidthMonitor.Add] at h ⊢
  by_cases hn : n ≤ 0
  · rw [if_pos hn] at h
    exact absurd h (by simp)
  · rw [if_neg hn] at h ⊢
    by_cases ht : m.triggered <;>
      by_cases hth : m.threshold ≤ postTotal m now n <;>
      by_cases hp : m.pendingTick <;> simp [ht, hth, hp] at h ⊢

theorem Add_untriggered_step (m : BandwidthMonitor) (now n : Int)
    (hn : 1 ≤ n) (htrig : m.triggered = false) :
    ((m.Add now n).1 = true ↔
      (m.threshold ≤ (m.Add now n).2.total ∧ m.pendingTick = true)) ∧
    (m.Add now n).2.triggered = (m.Add now n).1 ∧
    ((m.Add now n).1 = false →
      ((m.Add now n).2.pendingTick = true ↔ m.threshold ≤ (m.Add now n).2.total)) ∧
    (m.Add now n).2.total = postTotal m now n := by
  have hn' : ¬ n ≤ 0 := by omega
  rw [BandwidthMonitor.Add, if_neg hn']
  by_cases hth : m.threshold ≤ postTotal m now n <;>
    by_cases hp : m.pendingTick <;> simp [htrig, hth, hp]

theorem monitorTotals_cons (m : BandwidthMonitor) (c : Int × Int)
    (cs : List (Int × Int)) :
    monitorTotals m (c :: cs) =
      (m.Add c.1 c.2).2.total :: monitorTotals (m.Add c.1 c.2).2 cs := rfl

theorem fireCond_zero (m : BandwidthMonitor) (c : Int × Int) (cs : List (Int × Int)) :
    fireCond m (c :: cs) 0 ↔
      (m.threshold ≤ (m.Add c.1 c.2).2.total ∧ m.pendingTick = true) := by
  rw [fireCond, monitorTotals_cons]
  simp

theorem fireCond_succ (m : BandwidthMonitor) (c : Int × Int) (cs : List (Int × Int))
    (hn : 1 ≤ c.2) (htrig : m.triggered = false)
    (hnofire : (m.Add c.1 c.2).1 = false) (j : Nat) :
    fireCond m (c :: cs) (j + 1) ↔ fireCond (m.Add c.1 c.2).2 cs j := by
  have hstep := Add_untriggered_step m c.1 c.2 hn htrig
  cases j with
  | zero =>
    rw [fireCond, fireCond, monitorTotals_cons, Add_preserves_threshold]
    simp only [List.getD_cons_succ, List.getD_cons_zero]
    constructor
    · rintro ⟨h1, h2⟩
      exact ⟨h1, (hstep.2.2.1 hnofire).mpr h2⟩
    · rintro ⟨h1, h2⟩
      exact ⟨h1, (hstep.2.2.1 hnofire).mp h2⟩
  | succ j' =>
    rw [fireCond, fireCond, monitorTotals_cons, Add_preserves_threshold]
    simp only [List.getD_cons_succ]

theorem runMonitor_characterization :
    ∀ (calls : List (Int × Int)) (m : BandwidthMonitor),
      (∀ c ∈ calls, 1 ≤ c.2) → m.triggered = false →
      ∀ k, k < calls.length →
        ((runMonitor m calls).1.getD k false = true ↔
          (fireCond m calls k ∧ ∀ j, j < k → ¬ fireCond m calls j)) := by
  intro calls
  induction calls with
  | nil =>
    intro m _ _ k hk
    simp at hk
  | cons c cs ih =>
    intro m hadm htrig k hk
    have hn : 1 ≤ c.2 := hadm c (List.mem_cons_self c cs)
    have hadm' : ∀ x ∈ cs, 1 ≤ x.2 := fun x hx => hadm x (List.mem_cons_of_mem _ hx)
    have hstep := Add_untriggered_step m c.1 c.2 hn htrig
    rw [runMonitor]
    cases k with
    | zero =>
      simp only [List.getD_cons_zero]
      rw [fireCond_zero]
      constructor
      · intro h
        exact ⟨hstep.1.mp h, fun j hj => absurd hj (by omega)⟩
      · intro h
        exact hstep.1.mpr h.1
    | succ k' =>
      simp only [List.getD_cons_succ]
      by_cases hfire : (m.Add c.1 c.2).1 = true
      · have htrig' : (m.Add c.1 c.2).2.triggered = true := Add_fired_triggered hfire
        rw [runMonitor_triggered cs _ htrig']
        have hgetD : (List.replicate cs.length false).getD k' false = false := by
          by_cases hk' : k' < cs.length
          · rw [List.getD_eq_getElem _ _ (by rwa [List.length_replicate])]
            simp
          · rw [List.getD_eq_default _ _ (by rw [List.length_replicate]; omega)]
        rw [hgetD]
        constructor
        · intro h
          exact absurd h (by simp)
        · rintro ⟨_, hnone⟩
          exact absurd ((fireCond_zero m c cs).mpr (hstep.1.mp hfire))
            (hnone 0 (by omega))
      · have hfire' : (m.Add c.1 c.2).1 = false := by
          cases h : (m.Add c.1 c.2).1
          · rfl
          · exact absurd h hfire
        have htrig' : (m.Add c.1 c.2).2.triggered = false := by
          rw [hstep.2.1, hfire']
        have hrec := ih (m.Add c.1 c.2).2 hadm' htrig' k'
          (by simp at hk; omega)
        rw [hrec]
        constructor
        · rintro ⟨h1, h2⟩
          refine ⟨(fireCond_succ m c cs hn htrig hfire' k').mpr h1, ?_⟩
          intro j hj
          cases j with
          | zero =>
            intro hcontra
            have := (fireCond_zero m c cs).mp hcontra
            exact hfire (hstep.1.mpr this)
          | succ j' =>
            intro hcontra
            exact h2 j' (by omega)
              ((fireCond_succ m c cs hn htrig hfire' j').mp hcontra)
        · rintro ⟨h1, h2⟩
          refine ⟨(fireCond_succ m c cs hn htrig hfire' k').mp h1, ?_⟩
          intro j hj hcontra
          exact h2 (j + 1) (by omega)
            ((fireCond_succ m c cs hn htrig hfire' j).mpr hcontra)

theorem runMonitor_at_most_once :
    ∀ (calls : List (Int × Int)) (m : BandwidthMonitor),
      ((runMonitor m calls).1.count true) ≤ 1 := by
  intro calls
  induction calls with
  | nil => intro m; simp [runMonitor]
  | cons c cs ih =>
    intro m
    rw [runMonitor]
    by_cases hfire : (m.Add c.1 c.2).1 = true
    · have htrig' : (m.Add c.1 c.2).2.triggered = true := Add_fired_triggered hfire
      rw [hfire, runMonitor_triggered cs _ htrig']
      simp [List.count_replicate]
    · have hfire' : (m.Add c.1 c.2).1 = false := by
        cases h : (m.Add c.1 c.2).1
        · rfl
        · exact absurd h hfire
      rw [hfire']
      simpa [List.count_cons] using ih (m.Add c.1 c.2).2

/-- C4 (amended): non-positive samples are ignored entirely; over any
sequence of admissions (`n ≥ 1`), `Add` returns `true` at most once in the
monitor's lifetime, and it returns `true` exactly on the first admission
whose rolling-window total (after appending the sample and trimming expired
samples) is at or above (`≥`) the threshold while the immediately preceding
admission's rolling total was also at or above the threshold. -/
theorem bandwidthMonitor_fire_discipline (thr dur : Int)
    (calls : List (Int × Int)) (hadm : ∀ c ∈ calls, 1 ≤ c.2) :
    (∀ (m : BandwidthMonitor) (now n : Int), n ≤ 0 → m.Add now n = (false, m)) ∧
    ((runMonitor (NewBandwidthMonitor thr dur) calls).1.count true ≤ 1) ∧
    (∀ k, k < calls.length →
      ((runMonitor (NewBandwidthMonitor thr dur) calls).1.getD k false = true ↔
        (1 ≤ k ∧
          thr ≤ (monitorTotals (NewBandwidthMonitor thr dur) calls).getD k 0 ∧
          thr ≤ (monitorTotals (NewBandwidthMonitor thr dur) calls).getD (k - 1) 0 ∧
          ∀ j, 1 ≤ j → j < k →
            ¬(thr ≤ (monitorTotals (NewBandwidthMonitor thr dur) calls).getD j 0 ∧
              thr ≤ (monitorTotals (NewBandwidthMonitor thr dur) calls).getD (j - 1) 0)))) := by
  have hthr : (NewBandwidthMonitor thr dur).threshold = thr := rfl
  have hpend : (NewBandwidthMonitor thr dur).pendingTick = false := rfl
  have hcond : ∀ k, fireCond (NewBandwidthMonitor thr dur) calls k ↔
      (1 ≤ k ∧
        thr ≤ (monitorTotals (NewBandwidthMonitor thr dur) calls).getD k 0 ∧
        thr ≤ (monitorTotals (NewBandwidthMonitor thr dur) calls).getD (k - 1) 0) := by
    intro k
    cases k with
    | zero =>
      rw [fireCond, hpend]
      simp
    | succ k' =>
      rw [fireCond, hthr]
      constructor
      · rintro ⟨h1, h2⟩
        exact ⟨by omega, h1, h2⟩
      · rintro ⟨_, h1, h2⟩
        exact ⟨h1, h2⟩
  refine ⟨?_, runMonitor_at_most_once calls _, ?_⟩
  · intro m now n hle
    rw [BandwidthMonitor.Add, if_pos hle]
  · intro k hk
    rw [runMonitor_characterization calls (NewBandwidthMonitor thr dur) hadm rfl k hk]
    constructor
    · rintro ⟨h1, h2⟩
      obtain ⟨hk1, ht1, ht2⟩ := (hcond k).mp h1
      refine ⟨hk1, ht1, ht2, ?_⟩
      intro j hj1 hjk hpair
      exact h2 j hjk ((hcond j).mpr ⟨hj1, hpair.1, hpair.2⟩)
    · rintro ⟨hk1, ht1, ht2, hnone⟩
      refine ⟨(hcond k).mpr ⟨hk1, ht1, ht2⟩, ?_⟩
      intro j hjk hcontra
      obtain ⟨hj1, hp1, hp2⟩ := (hcond j).mp hcontra
      exact hnone j hj1 hjk ⟨hp1, hp2⟩

/-- Witness for C4 (amended) on a concrete admission sequence: threshold 10,
window 5; samples of 10 at times 0 and 6; the monitor fires on the second
admission. -/
theorem bandwidthMonitor_fire_discipline_witness :
    (∀ c ∈ [((0 : Int), (10 : Int)), (6, 10)], 1 ≤ c.2) ∧
    ((runMonitor (NewBandwidthMonitor 10 5) [(0, 10), (6, 10)]).1.count true ≤ 1) :=
  ⟨by decide, (bandwidthMonitor_fire_discipline 10 5 [(0, 10), (6, 10)]
    (by decide)).2.1⟩

/-- C4 counterexample to the claim as stated: with threshold 10 and window
duration 5, admissions of 10 bytes at times 0 and 6 leave the rolling total
exactly equal to the threshold on both admissions (never strictly above it),
yet `Add` returns `true` on the second admission. -/
theorem bandwidthMonitor_fires_at_exact_threshold :
    (runMonitor (NewBandwidthMonitor 10 5) [(0, 10), (6, 10)]).1 = [false, true] ∧
    monitorTotals (NewBandwidthMonitor 10 5) [(0, 10), (6, 10)] = [10, 10] ∧
    ¬((10 : Int) > 10) := by
  refine ⟨by decide, by decide, by decide⟩

/-! ## Control-frame multiplexer (`internal/tunnel/control_conn.go`)

The keyed `HMAC-SHA256(·, control_key)` function is a parameter `mac`;
`verifyMAC` compares its first 16 bytes against the trailing MAC field.
`processBuffer`'s scan is modelled as a recursion whose per-iteration trace
records, in order, every `appendData` call (each of which reports its chunk
length to the `onData` callback at the moment it appends) and every handler
invocation. -/

def controlMagic : List Nat := [0xF7, 0x48, 0x42, 0x43]

def controlVersion : Nat := 0x01

/-- First index of `pat` in `buf` (`bytes.Index`). -/
def bytesIndex (pat : List Nat) : List Nat → Option Nat
  | [] => if pat.isPrefixOf [] then some 0 else none
  | b :: rest =>
    if pat.isPrefixOf (b :: rest) then some 0
    else (bytesIndex pat rest).map (fun i => i + 1)

theorem bytesIndex_some_prefix {pat : List Nat} :
    ∀ {buf : List Nat} {i : Nat}, bytesIndex pat buf = some i →
      pat.isPrefixOf (buf.drop i) = true := by
  intro buf
  induction buf with
  | nil =>
    intro i h
    rw [bytesIndex] at h
    by_cases hp : pat.isPrefixOf [] = true
    · rw [if_pos hp] at h
      cases h
      exact hp
    · rw [if_neg hp] at h
      cases h
  | cons b rest ih =>
    intro i h
    rw [bytesIndex] at h
    by_cases hp : pat.isPrefixOf (b :: rest) = true
    · rw [if_pos hp] at h
      cases h
      exact hp
    · rw [if_neg hp] at h
      match hrec : bytesIndex pat rest with
      | none => rw [hrec] at h; cases h
      | some i' =>
        rw [hrec] at h
        have hii : i' + 1 = i := by simpa using h
        subst hii
        exact ih hrec

theorem bytesIndex_some_lt {pat : List Nat} (hpat : pat ≠ []) :
    ∀ {buf : List Nat} {i : Nat}, bytesIndex pat buf = some i → i < buf.length := by
  intro buf i h
  have hpre := bytesIndex_some_prefix h
  by_contra hge
  rw [List.drop_eq_nil_of_le (by omega)] at hpre
  rw [List.isPrefixOf_iff_prefix] at hpre
  exact hpat (List.prefix_nil.mp hpre)

theorem bytesIndex_none_iff {pat : List Nat} (hpat : pat ≠ []) :
    ∀ buf : List Nat, (bytesIndex pat buf = none ↔ ¬ pat <:+: buf) := by
  intro buf
  induction buf with
  | nil =>
    rw [bytesIndex]
    have hp : ¬ (pat.isPrefixOf [] = true) := by
      rw [List.isPrefixOf_iff_prefix]
      intro hc
      exact hpat (List.prefix_nil.mp hc)
    rw [if_neg hp]
    exact ⟨fun _ hc => hpat (List.infix_nil.mp hc), fun _ => rfl⟩
  | cons b rest ih =>
    rw [bytesIndex]
    by_cases hp : pat.isPrefixOf (b :: rest) = true
    · rw [if_pos hp]
      rw [List.isPrefixOf_iff_prefix] at hp
      constructor
      · intro hc
        cases hc
      · intro hc
        exact absurd hp.isInfix hc
    · rw [if_neg hp]
      rw [List.isPrefixOf_iff_prefix] at hp
      constructor
      · intro h hc
        rcases List.infix_cons_iff.mp hc with hc | hc
        · exact hp hc
        · rw [Option.map_eq_none'] at h
          exact (ih.mp h) hc
      · intro h
        rw [Option.map_eq_none', ih]
        intro hc
        exact h (List.infix_cons_iff.mpr (Or.inr hc))

/-- A control-conn processing event: bytes forwarded to the data buffer
(whose length is reported to `onData` as it is appended), or a verified
control frame handed to the handler. -/
inductive CtrlEvent where
  | data (bytes : List Nat)
  | ctrl (cmd : Nat) (payload : List Nat)
deriving DecidableEq

/-- Model of `ControlConn.processBuffer`: scan for the magic, forward preceding bytes
as data, parse and verify a candidate frame, consume it on success, emit one
byte and rescan on failure.  Returns the event trace of this invocation and
the leftover scan buffer. -/
def processBuffer (mac : List Nat → List Nat) (buf : List Nat) :
    List CtrlEvent × List Nat :=
  match hidx : bytesIndex controlMagic buf with
  | none => ((if buf = [] then [] else [CtrlEvent.data buf]), [])
  | some idx =>
    if h0 : idx = 0 then
      if h24 : buf.length < 24 then ([], buf)
      else if hmagic : ¬ (controlMagic.isPrefixOf buf = true) then
        (CtrlEvent.data (buf.take 1) :: (processBuffer mac (buf.drop 1)).1,
          (processBuffer mac (buf.drop 1)).2)
      else
        if htot : buf.length < 4 + 1 + 1 + 2 + (buf.getD 6 0 * 256 + buf.getD 7 0) + 16 then
          ([], buf)
        else if hok : buf.getD 4 0 = controlVersion ∧
            (mac ((buf.take (4 + 1 + 1 + 2 + (buf.getD 6 0 * 256 + buf.getD 7 0) + 16 - 16)).drop 4)).take 16 =
              (buf.take (4 + 1 + 1 + 2 + (buf.getD 6 0 * 256 + buf.getD 7 0) + 16)).drop
                (4 + 1 + 1 + 2 + (buf.getD 6 0 * 256 + buf.getD 7 0) + 16 - 16) then
          (CtrlEvent.ctrl (buf.getD 5 0)
              ((buf.take (4 + 1 + 1 + 2 + (buf.getD 6 0 * 256 + buf.getD 7 0))).drop 8) ::
              (processBuffer mac
                (buf.drop (4 + 1 + 1 + 2 + (buf.getD 6 0 * 256 + buf.getD 7 0) + 16))).1,
            (processBuffer mac
              (buf.drop (4 + 1 + 1 + 2 + (buf.getD 6 0 * 256 + buf.getD 7 0) + 16))).2)
        else
          (CtrlEvent.data (buf.take 1) :: (processBuffer mac (buf.drop 1)).1,
            (processBuffer mac (buf.drop 1)).2)
    else
      (CtrlEvent.data (buf.take idx) :: (processBuffer mac (buf.drop idx)).1,
        (processBuffer mac (buf.drop idx)).2)
termination_by buf.length
decreasing_by
  · simp only [List.length_drop]
    omega
  · simp only [List.length_drop]
    omega
  · simp only [List.length_drop]
    omega
  · have hlt : idx < buf.length := bytesIndex_some_lt (by decide) hidx
    simp only [List.length_drop]
    omega

/-- C5: control-frame graceful degradation.  When the scan buffer holds a
complete candidate frame starting with the 4-byte magic (big-endian length
field `hi, lo` matching the payload, 16-byte MAC field), then: if the
version byte is 1 and the truncated HMAC over the header-after-magic plus
payload verifies, the handler is invoked with `(cmd, payload)` and the whole
frame is consumed with none of its bytes delivered as data; otherwise
exactly the first magic byte is emitted as data and scanning resumes at the
next byte. -/
theorem processBuffer_complete_frame (mac : List Nat → List Nat)
    (ver cmd hi lo : Nat) (payload macBytes rest : List Nat)
    (hlen : hi * 256 + lo = payload.length) (hmac16 : macBytes.length = 16) :
    (ver = controlVersion ∧
        (mac (ver :: cmd :: hi :: lo :: payload)).take 16 = macBytes →
      processBuffer mac
          (controlMagic ++ ver :: cmd :: hi :: lo :: (payload ++ (macBytes ++ rest))) =
        (CtrlEvent.ctrl cmd payload :: (processBuffer mac rest).1,
          (processBuffer mac rest).2)) ∧
    (¬ (ver = controlVersion ∧
        (mac (ver :: cmd :: hi :: lo :: payload)).take 16 = macBytes) →
      processBuffer mac
          (controlMagic ++ ver :: cmd :: hi :: lo :: (payload ++ (macBytes ++ rest))) =
        (CtrlEvent.data [0xF7] ::
            (processBuffer mac
              ((controlMagic ++ ver :: cmd :: hi :: lo ::
                (payload ++ (macBytes ++ rest))).drop 1)).1,
          (processBuffer mac
            ((controlMagic ++ ver :: cmd :: hi :: lo ::
              (payload ++ (macBytes ++ rest))).drop 1)).2)) := by
  have hpre8 : controlMagic ++ ver :: cmd :: hi :: lo :: (payload ++ (macBytes ++ rest)) =
      [0xF7, 0x48, 0x42, 0x43, ver, cmd, hi, lo] ++ (payload ++ (macBytes ++ rest)) := by
    simp [controlMagic]
  have hprefix : controlMagic.isPrefixOf
      (controlMagic ++ ver :: cmd :: hi :: lo :: (payload ++ (macBytes ++ rest))) = true :=
    List.isPrefixOf_iff_prefix.mpr (List.prefix_append _ _)
  have hidx : bytesIndex controlMagic
      (controlMagic ++ ver :: cmd :: hi :: lo :: (payload ++ (macBytes ++ rest))) =
      some 0 := by
    rw [hpre8] at hprefix ⊢
    rw [List.cons_append, bytesIndex, if_pos (by rw [← List.cons_append]; exact hprefix)]
  have hlength : (controlMagic ++ ver :: cmd :: hi :: lo ::
      (payload ++ (macBytes ++ rest))).length =
      8 + (payload.length + (16 + rest.length)) := by
    rw [hpre8]
    simp [hmac16]
    omega
  have hgetD4 : (controlMagic ++ ver :: cmd :: hi :: lo ::
      (payload ++ (macBytes ++ rest))).getD 4 0 = ver := by
    rw [hpre8]
    rfl
  have hgetD5 : (controlMagic ++ ver :: cmd :: hi :: lo ::
      (payload ++ (macBytes ++ rest))).getD 5 0 = cmd := by
    rw [hpre8]
    rfl
  have hgetD6 : (controlMagic ++ ver :: cmd :: hi :: lo ::
      (payload ++ (macBytes ++ rest))).getD 6 0 = hi := by
    rw [hpre8]
    rfl
  have hgetD7 : (controlMagic ++ ver :: cmd :: hi :: lo ::
      (payload ++ (macBytes ++ rest))).getD 7 0 = lo := by
    rw [hpre8]
    rfl
  have htake8 : ∀ t : List Nat,
      (([0xF7, 0x48, 0x42, 0x43, ver, cmd, hi, lo] ++ t).take (8 + t.length)) =
        [0xF7, 0x48, 0x42, 0x43, ver, cmd, hi, lo] ++ t := by
    intro t
    apply List.take_of_length_le
    simp
    omega
  have htake_pay : ((controlMagic ++ ver :: cmd :: hi :: lo ::
      (payload ++ (macBytes ++ rest))).take (4 + 1 + 1 + 2 + (hi * 256 + lo))) =
      [0xF7, 0x48, 0x42, 0x43, ver, cmd, hi, lo] ++ payload := by
    rw [hpre8, hlen, ← List.append_assoc]
    have h1 : ((([0xF7, 0x48, 0x42, 0x43, ver, cmd, hi, lo] ++ payload) ++
        (macBytes ++ rest)).take (4 + 1 + 1 + 2 + payload.length)) =
        (([0xF7, 0x48, 0x42, 0x43, ver, cmd, hi, lo] ++ payload)).take
          (4 + 1 + 1 + 2 + payload.length) :=
      List.take_append_of_le_length (by simp; omega)
    rw [h1]
    apply List.take_of_length_le
    simp
    omega
  have htake_tot : ((controlMagic ++ ver :: cmd :: hi :: lo ::
      (payload ++ (macBytes ++ rest))).take (4 + 1 + 1 + 2 + (hi * 256 + lo) + 16)) =
      ([0xF7, 0x48, 0x42, 0x43, ver, cmd, hi, lo] ++ payload) ++ macBytes := by
    rw [hpre8, hlen, ← List.append_assoc, ← List.append_assoc]
    have h1 : (((([0xF7, 0x48, 0x42, 0x43, ver, cmd, hi, lo] ++ payload) ++ macBytes) ++
        rest).take (4 + 1 + 1 + 2 + payload.length + 16)) =
        ((([0xF7, 0x48, 0x42, 0x43, ver, cmd, hi, lo] ++ payload) ++ macBytes)).take
          (4 + 1 + 1 + 2 + payload.length + 16) :=
      List.take_append_of_le_length (by simp [hmac16]; omega)
    rw [h1]
    apply List.take_of_length_le
    simp [hmac16]
    omega
  have hdrop8 : ∀ t : List Nat,
      (([0xF7, 0x48, 0x42, 0x43, ver, cmd, hi, lo] ++ t).drop 8) = t := by
    intro t
    rw [List.drop_append_of_le_length (by simp), List.drop_eq_nil_of_le (by simp),
      List.nil_append]
  have hdrop4 : ∀ t : List Nat,
      (([0xF7, 0x48, 0x42, 0x43, ver, cmd, hi, lo] ++ t).drop 4) =
        [ver, cmd, hi, lo] ++ t := by
    intro t
    rw [show ([0xF7, 0x48, 0x42, 0x43, ver, cmd, hi, lo] ++ t) =
      [0xF7, 0x48, 0x42, 0x43] ++ ([ver, cmd, hi, lo] ++ t) from by simp,
      List.drop_append_of_le_length (by simp), List.drop_eq_nil_of_le (by simp),
      List.nil_append]
  have hmacslice : ((controlMagic ++ ver :: cmd :: hi :: lo ::
      (payload ++ (macBytes ++ rest))).take (4 + 1 + 1 + 2 + (hi * 256 + lo) + 16)).drop
        (4 + 1 + 1 + 2 + (hi * 256 + lo) + 16 - 16) = macBytes := by
    rw [htake_tot]
    have h2 : (4 + 1 + 1 + 2 + (hi * 256 + lo) + 16 - 16) =
        (([0xF7, 0x48, 0x42, 0x43, ver, cmd, hi, lo] ++ payload)).length := by
      simp [hlen]
      omega
    rw [h2, List.drop_append_of_le_length (le_refl _), List.drop_length, List.nil_append]
  have hbodyslice : ((controlMagic ++ ver :: cmd :: hi :: lo ::
      (payload ++ (macBytes ++ rest))).take
        (4 + 1 + 1 + 2 + (hi * 256 + lo) + 16 - 16)).drop 4 =
      ver :: cmd :: hi :: lo :: payload := by
    have h3 : (4 + 1 + 1 + 2 + (hi * 256 + lo) + 16 - 16) =
        (4 + 1 + 1 + 2 + (hi * 256 + lo)) := by omega
    rw [h3, htake_pay, hdrop4]
    rfl
  have hpayslice : ((controlMagic ++ ver :: cmd :: hi :: lo ::
      (payload ++ (macBytes ++ rest))).take
        (4 + 1 + 1 + 2 + (hi * 256 + lo))).drop 8 = payload := by
    rw [htake_pay, hdrop8]
  have hdroptot : (controlMagic ++ ver :: cmd :: hi :: lo ::
      (payload ++ (macBytes ++ rest))).drop (4 + 1 + 1 + 2 + (hi * 256 + lo) + 16) =
      rest := by
    rw [hpre8, hlen, ← List.append_assoc, ← List.append_assoc]
    have h4 : (4 + 1 + 1 + 2 + payload.length + 16) =
        ((([0xF7, 0x48, 0x42, 0x43, ver, cmd, hi, lo] ++ payload) ++ macBytes)).length := by
      simp [hmac16]
      omega
    rw [h4, List.drop_append_of_le_length (le_refl _), List.drop_length, List.nil_append]
  have htake1 : (controlMagic ++ ver :: cmd :: hi :: lo ::
      (payload ++ (macBytes ++ rest))).take 1 = [0xF7] := by
    rw [hpre8]
    rfl
  constructor
  · intro hvalid
    rw [processBuffer.eq_def]
    split
    · rename_i heq
      rw [hidx] at heq
      cases heq
    · rename_i idx heq
      rw [hidx] at heq
      have hidx0 : idx = 0 := by
        cases heq
        rfl
      rw [dif_pos hidx0, dif_neg (by rw [hlength]; omega),
        dif_neg (by rw [not_not]; exact hprefix)]
      rw [hgetD6, hgetD7]
      rw [dif_neg (by rw [hlength]; omega)]
      rw [dif_pos (by
        constructor
        · rw [hgetD4]; exact hvalid.1
        · rw [hbodyslice, hmacslice]; exact hvalid.2)]
      rw [hgetD5, hpayslice, hdroptot]
  · intro hinvalid
    rw [processBuffer.eq_def]
    split
    · rename_i heq
      rw [hidx] at heq
      cases heq
    · rename_i idx heq
      rw [hidx] at heq
      have hidx0 : idx = 0 := by
        cases heq
        rfl
      rw [dif_pos hidx0, dif_neg (by rw [hlength]; omega),
        dif_neg (by rw [not_not]; exact hprefix)]
      rw [hgetD6, hgetD7]
      rw [dif_neg (by rw [hlength]; omega)]
      rw [dif_neg (by
        rw [hgetD4, hbodyslice, hmacslice]
        exact hinvalid)]
      rw [htake1]

/-- Witness for C5 with a concrete valid frame and a dummy MAC function. -/
theorem processBuffer_complete_frame_witness :
    ((0 : Nat) * 256 + 1 = ([7] : List Nat).length ∧
      (List.replicate 16 0 : List Nat).length = 16) ∧
    processBuffer (fun _ => List.replicate 32 0)
        (controlMagic ++ 1 :: 2 :: 0 :: 1 :: ([7] ++ (List.replicate 16 0 ++ [9]))) =
      (CtrlEvent.ctrl 2 [7] ::
          (processBuffer (fun _ => List.replicate 32 0) [9]).1,
        (processBuffer (fun _ => List.replicate 32 0) [9]).2) := by
  refine ⟨⟨by decide, by decide⟩, ?_⟩
  exact (processBuffer_complete_frame (fun _ => List.replicate 32 0) 1 2 0 1
    [7] (List.replicate 16 0) [9] (by decide) (by decide)).1
    ⟨rfl, by decide⟩

/-- Model of the fill loop of `ControlConn.Read`: each underlying read's chunk is appended
to the scan buffer and `processBuffer` is run; the leftover scan buffer
persists to the next chunk. -/
def feedChunks (mac : List Nat → List Nat) : List (List Nat) → List Nat → List CtrlEvent
  | [], _ => []
  | c :: cs, rb =>
    (processBuffer mac (rb ++ c)).1 ++ feedChunks mac cs (processBuffer mac (rb ++ c)).2

/-- Successive `ControlConn.Read(p)` calls drain the FIFO data buffer:
deliver a prefix of the buffered bytes, keep the remainder. -/
def fifoRead : List Nat → List Nat → List (List Nat)
  | [], _ => []
  | s :: ss, buf => buf.take s :: fifoRead ss (buf.drop s)

theorem processBuffer_no_magic (mac : List Nat → List Nat) (buf : List Nat)
    (h : ¬ controlMagic <:+: buf) :
    processBuffer mac buf = ((if buf = [] then [] else [CtrlEvent.data buf]), []) := by
  rw [processBuffer.eq_def]
  split
  · rfl
  · rename_i idx heq
    rw [(bytesIndex_none_iff (by decide) buf).mpr h] at heq
    cases heq

theorem not_infix_append {pat a b : List Nat} (h : ¬ pat <:+: a ++ b) :
    ¬ pat <:+: a ∧ ¬ pat <:+: b :=
  ⟨fun hc => h (hc.trans (List.prefix_append a b).isInfix),
    fun hc => h (hc.trans (List.suffix_append a b).isInfix)⟩

theorem fifoRead_join :
    ∀ (sizes : List Nat) (buf : List Nat), buf.length ≤ sizes.sum →
      (fifoRead sizes buf).flatten = buf := by
  intro sizes
  induction sizes with
  | nil =>
    intro buf h
    simp at h
    rw [h]
    rfl
  | cons s ss ih =>
    intro buf h
    rw [fifoRead, List.flatten_cons, ih (buf.drop s)
      (by simp only [List.length_drop, List.sum_cons] at h ⊢; omega),
      List.take_append_drop]

/-- C10: control multiplexer passthrough.  If the byte stream delivered by
the underlying connection contains no occurrence of the 4-byte control
magic, the scan forwards exactly the stream's nonempty chunks as data, in
order and unchanged — each append being the moment its length is reported to
the data callback — and successive `Read` calls drain those bytes from the
FIFO data buffer unchanged and in order. -/
theorem controlConn_passthrough (mac : List Nat → List Nat)
    (chunks : List (List Nat)) (hno : ¬ controlMagic <:+: chunks.flatten) :
    feedChunks mac chunks [] =
      (chunks.filter (fun c => !(c.isEmpty))).map CtrlEvent.data ∧
    (∀ sizes : List Nat, chunks.flatten.length ≤ sizes.sum →
      (fifoRead sizes chunks.flatten).flatten = chunks.flatten) := by
  refine ⟨?_, fun sizes hs => fifoRead_join sizes _ hs⟩
  induction chunks with
  | nil => rfl
  | cons c cs ih =>
    rw [List.flatten_cons] at hno
    have hsplit := not_infix_append hno
    rw [feedChunks, List.nil_append,
      processBuffer_no_magic mac c hsplit.1]
    by_cases hc : c = []
    · rw [if_pos hc, List.filter_cons, ih hsplit.2]
      simp [hc]
    · rw [if_neg hc, List.filter_cons, ih hsplit.2]
      have hne : (!c.isEmpty) = true := by
        simp [List.isEmpty_iff, hc]
      rw [if_pos hne]
      rfl

/-- Witness for C10 on a concrete magic-free stream. -/
theorem controlConn_passthrough_witness :
    (¬ controlMagic <:+: ([[1, 2], [], [3]] : List (List Nat)).flatten) ∧
    feedChunks (fun _ => List.replicate 32 0) [[1, 2], [], [3]] [] =
      [CtrlEvent.data [1, 2], CtrlEvent.data [3]] := by
  refine ⟨by decide, ?_⟩
  have h := (controlConn_passthrough (fun _ => List.replicate 32 0)
    [[1, 2], [], [3]] (by decide)).1
  rw [h]
  rfl

/-! ## Key derivation (`internal/tunnel/control_conn.go`, `internal/tunnel/boost.go`)
and the boost activation path (`apis`, `wrapAPIBoost` handler →
`ManagedConn.EnableBoost` → `sudoku.Conn.EnableBoost`).

SHA-256 enters the model as a function parameter `sha` with 32-byte output;
seeds and keys are byte lists (Go string concatenation of the ASCII suffixes
is byte-list append). -/

/-- The UTF-8 bytes of `"|hb-control"`. -/
def hbControlSuffix : List Nat :=
  [0x7C, 0x68, 0x62, 0x2D, 0x63, 0x6F, 0x6E, 0x74, 0x72, 0x6F, 0x6C]

/-- The UTF-8 bytes of `"|hb-aes"`. -/
def hbAesSuffix : List Nat :=
  [0x7C, 0x68, 0x62, 0x2D, 0x61, 0x65, 0x73]

/-- Model of `DeriveControlKey`: `sha256(seed + "|hb-control")`. -/
def DeriveControlKey (sha : List Nat → List Nat) (seed : List Nat) : List Nat :=
  sha (seed ++ hbControlSuffix)

/-- Model of `DeriveBoostAESKey`: `sha256(seed + "|hb-aes")` (full 32 bytes). -/
def DeriveBoostAESKey (sha : List Nat → List Nat) (seed : List Nat) : List Nat :=
  sha (seed ++ hbAesSuffix)

/-- The cipher material `sudoku.Conn.EnableBoost` actually installs: the AES
block cipher is keyed with `aesKey[:aes.BlockSize]` and the CTR stream uses
`iv[:aes.BlockSize]` (`aes.BlockSize = 16`). -/
structure BoostCipherSetup where
  key : List Nat
  iv : List Nat
  ascii : Bool
deriving DecidableEq

/-- The key/IV validation and truncation of `Conn.EnableBoost`. -/
def enableBoostSetup (aesKey iv : List Nat) (isASCII : Bool) :
    Except String BoostCipherSetup :=
  if aesKey.length < 16 then Except.error "aesKey too short"
  else if iv.length < 16 then Except.error "iv too short"
  else Except.ok ⟨aesKey.take 16, iv.take 16, isASCII⟩

def ControlCmdBoostAck : Nat := 0x02

/-- The `wrapAPIBoost` BOOST_ACK handler: on `cmd = BOOST_ACK` with a
`mode_byte || IV(≥16)` payload, enable boost on the read side with
`DeriveBoostAESKey(key)` and `iv[:16]`. -/
def apiBoostAckHandler (sha : List Nat → List Nat) (seedKey : List Nat)
    (cmd : Nat) (payload : List Nat) : Option BoostCipherSetup :=
  if cmd ≠ ControlCmdBoostAck then none
  else if payload.length < 17 then none
  else
    let targetASCII := payload.getD 0 255 == 0
    let iv := payload.drop 1
    if iv.length < 16 then none
    else
      match enableBoostSetup (DeriveBoostAESKey sha seedKey) (iv.take 16) targetASCII with
      | Except.ok s => some s
      | Except.error _ => none

/-- C7: derived key material.  For every seed, the control-channel HMAC key
is `SHA-256(seed || "|hb-control")`, and the AES key that actually keys the
boost codec's AES-128-CTR cipher — the key the BOOST_ACK handler hands to
`EnableBoost`, truncated there to `aes.BlockSize` — is
`SHA-256(seed || "|hb-aes")` truncated to 16 bytes. -/
theorem derived_key_material (sha : List Nat → List Nat)
    (h32 : ∀ x, (sha x).length = 32) (seed : List Nat)
    (payload : List Nat) (hp : 17 ≤ payload.length) :
    DeriveControlKey sha seed =
      sha (seed ++ [0x7C, 0x68, 0x62, 0x2D, 0x63, 0x6F, 0x6E, 0x74, 0x72, 0x6F, 0x6C]) ∧
    apiBoostAckHandler sha seed ControlCmdBoostAck payload =
      some ⟨(sha (seed ++ [0x7C, 0x68, 0x62, 0x2D, 0x61, 0x65, 0x73])).take 16,
        ((payload.drop 1).take 16).take 16, payload.getD 0 255 == 0⟩ := by
  constructor
  · rfl
  · rw [apiBoostAckHandler, if_neg (by simp), if_neg (by omega)]
    have hiv : 16 ≤ (payload.drop 1).length := by
      simp only [List.length_drop]
      omega
    rw [if_neg (by simp only [List.length_drop]; omega)]
    rw [enableBoostSetup, if_neg (by rw [DeriveBoostAESKey, h32]; omega),
      if_neg (by simp only [List.length_take, List.length_drop]; omega)]
    rfl

/-- Witness for C7 at a concrete `sha`, seed, and ACK payload. -/
theorem derived_key_material_witness :
    (∀ x : List Nat, ((fun _ => List.range 32) x : List Nat).length = 32) ∧
    apiBoostAckHandler (fun _ => List.range 32) [1] ControlCmdBoostAck
        (0 :: List.replicate 16 5) =
      some ⟨(List.range 32).take 16, List.replicate 16 5, true⟩ := by
  refine ⟨fun x => by simp, ?_⟩
  have h := (derived_key_material (fun _ => List.range 32) (fun x => by simp) [1]
    (0 :: List.replicate 16 5) (by simp)).2
  rw [h]
  rfl

end Tunnel

namespace Apis

/-! ## Handshake payload (`apis`, `buildHandshakePayload`) -/

/-- Model of `binary.BigEndian.PutUint64`: the 8 big-endian bytes of a `uint64`. -/
def beBytes8 (v : Nat) : List Nat :=
  [(v >>> 56) % 256, (v >>> 48) % 256, (v >>> 40) % 256, (v >>> 32) % 256,
    (v >>> 24) % 256, (v >>> 16) % 256, (v >>> 8) % 256, v % 256]

/-- Model of `binary.BigEndian.Uint64` over a byte list. -/
def beUint64 (bs : List Nat) : Nat :=
  bs.foldl (fun a b => a * 256 + b) 0

/-- Model of `buildHandshakePayload(key)` at Unix time `nowUnix`:
`timestamp_be(8) || sha256(key)[0..8]` (the Go `uint64(int64)` conversion
wraps modulo `2^64`). -/
def buildHandshakePayload (sha : List Nat → List Nat) (nowUnix : Int)
    (key : List Nat) : List Nat :=
  beBytes8 ((nowUnix % 2 ^ 64).toNat) ++ (sha key).take 8

theorem beUint64_beBytes8 {v : Nat} (h : v < 2 ^ 64) : beUint64 (beBytes8 v) = v := by
  simp only [beUint64, beBytes8, List.foldl_cons, List.foldl_nil,
    Nat.shiftRight_eq_div_pow]
  norm_num
  omega

/-- C9: for every key, `buildHandshakePayload(key)` returns exactly 16 bytes
whose first 8 bytes encode the current Unix timestamp big-endian (nonzero,
given a positive clock) and whose last 8 bytes equal the first 8 bytes of
SHA-256(key). -/
theorem buildHandshakePayload_format (sha : List Nat → List Nat)
    (h32 : ∀ x, (sha x).length = 32) (nowUnix : Int) (key : List Nat)
    (hpos : 0 < nowUnix) (hrange : nowUnix < 2 ^ 63) :
    (buildHandshakePayload sha nowUnix key).length = 16 ∧
    beUint64 ((buildHandshakePayload sha nowUnix key).take 8) = nowUnix.toNat ∧
    (buildHandshakePayload sha nowUnix key).take 8 ≠ List.replicate 8 0 ∧
    (buildHandshakePayload sha nowUnix key).drop 8 = (sha key).take 8 := by
  have hmod : (nowUnix % 2 ^ 64) = nowUnix := by
    apply Int.emod_eq_of_lt (by omega)
    have h64 : (2 : Int) ^ 63 < 2 ^ 64 := by norm_num
    omega
  have hlt : (nowUnix % 2 ^ 64).toNat < 2 ^ 64 := by
    rw [hmod]
    have h64 : (2 : Int) ^ 63 < 2 ^ 64 := by norm_num
    omega
  have hlen8 : (beBytes8 ((nowUnix % 2 ^ 64).toNat)).length = 8 := rfl
  have htake : (buildHandshakePayload sha nowUnix key).take 8 =
      beBytes8 ((nowUnix % 2 ^ 64).toNat) := by
    rw [buildHandshakePayload, List.take_append_of_le_length (by rw [hlen8]),
      List.take_of_length_le (by rw [hlen8])]
  have hdrop : (buildHandshakePayload sha nowUnix key).drop 8 = (sha key).take 8 := by
    rw [buildHandshakePayload, List.drop_append_of_le_length (by rw [hlen8]),
      List.drop_eq_nil_of_le (by rw [hlen8]), List.nil_append]
  have hdecode : beUint64 ((buildHandshakePayload sha nowUnix key).take 8) =
      nowUnix.toNat := by
    rw [htake, beUint64_beBytes8 hlt, hmod]
  refine ⟨?_, hdecode, ?_, hdrop⟩
  · rw [buildHandshakePayload, List.length_append, hlen8, List.length_take, h32]
    omega
  · intro hzero
    have h0 : beUint64 ((buildHandshakePayload sha nowUnix key).take 8) = 0 := by
      rw [hzero]
      rfl
    rw [hdecode] at h0
    omega

/-- Witness for C9 at a concrete `sha`, time, and key. -/
theorem buildHandshakePayload_format_witness :
    (buildHandshakePayload (fun _ => List.range 32) 1700000000 [9]).length = 16 ∧
    (buildHandshakePayload (fun _ => List.range 32) 1700000000 [9]).drop 8 =
      (List.range 32).take 8 := by
  have h := buildHandshakePayload_format (fun _ => List.range 32)
    (fun x => by simp) 1700000000 [9] (by norm_num) (by norm_num)
  exact ⟨h.1, h.2.2.2⟩

/-! ## Server handshake (`apis`, `ServerHandshake`)

The HTTP-mask step is embedded from the source: the bufio reader feeding
`httpmask.ConsumeHeader` is modelled as the list of bytes it can deliver
before its next read error (EOF or deadline), `ReadSlice('\n')` as taking
the next newline-terminated line (consuming, on error, the partial line it
returns alongside the error), and `ConsumeHeader` itself line by line —
including its error paths, which consume bytes from the reader that they
omit from the returned slice (`nil` on a request-line read error, and the
trailing partial line in every later error).  The timestamp comparison is
computed in wrapping `int64` arithmetic exactly as the source does:
`now - ts` wraps modulo `2^64`, and the source's `abs` negates with
wrapping, so `abs(-2^63)` is `-2^63` itself.  The remaining effectful
sub-steps — `crypto.NewAEADConn` setup, the decrypting
`io.ReadFull(cConn, 16)`, and `protocol.ReadAddress` — are supplied as an
oracle, together with the sudoku codec's observable
`(recorder, bufio-buffered)` state at each point a failure can occur.  What
is embedded from the source is the control flow: which failures build which
`HandshakeError`, the `fail` closure calling `GetBufferedAndRecorded()` at
failure time, the timestamp check with its `int64` decode, and
`StopRecording()` releasing the recorder before the target-address read. -/

/-- Observable state of the recording sudoku codec: the recorder contents
(`none` once `StopRecording` has released it, or for a nil codec) and the
bytes currently buffered in its bufio reader. -/
structure SudokuSnap where
  recorder : Option (List Nat)
  buffered : List Nat
deriving DecidableEq

/-- Model of `Conn.GetBufferedAndRecorded` (`conn.go`): a nil receiver yields nil;
otherwise the recorded bytes followed by the buffered bytes when any are
buffered. -/
def getBufferedAndRecorded : Option SudokuSnap → List Nat
  | none => []
  | some st =>
    let recorded := match st.recorder with
      | none => []
      | some r => r
    if 0 < st.buffered.length then recorded ++ st.buffered else recorded

/-- The `HandshakeError` fields relevant to the fallback contract. -/
structure HandshakeError where
  rawConn : Nat
  httpHeaderData : List Nat
  readData : List Nat
deriving DecidableEq

inductive HSStage where
  | httpMask
  | aeadSetup
  | readHandshake
  | timestamp
  | readAddress
deriving DecidableEq

inductive HSResult where
  | ok (target : List Nat)
  | fail (stage : HSStage) (e : HandshakeError)
deriving DecidableEq

/-- Model of `bufio.Reader.ReadSlice('\n')` over the list of bytes the
reader can still deliver: the line up to and including the first `'\n'`
with the remaining bytes and `true`, or — when the stream runs out first —
everything that was left, an empty remainder and `false` (the partial data
`ReadSlice` returns alongside its error, consumed from the reader). -/
def readSlice : List Nat → List Nat × List Nat × Bool
  | [] => ([], [], false)
  | b :: rest =>
    if b = 10 then ([10], rest, true)
    else (b :: (readSlice rest).1, (readSlice rest).2.1, (readSlice rest).2.2)

theorem readSlice_append (s : List Nat) : (readSlice s).1 ++ (readSlice s).2.1 = s := by
  induction s with
  | nil => rfl
  | cons b rest ih =>
    by_cases hb : b = 10
    · simp [readSlice, hb]
    · simp [readSlice, hb, ih]

theorem readSlice_true_length (s : List Nat) (h : (readSlice s).2.2 = true) :
    (readSlice s).2.1.length < s.length := by
  induction s with
  | nil => simp [readSlice] at h
  | cons b rest ih =>
    by_cases hb : b = 10
    · simp [readSlice, hb]
    · simp only [readSlice, if_neg hb] at h ⊢
      exact Nat.lt_trans (ih h) (Nat.lt_succ_self _)

/-- The empty-line test of `ConsumeHeader`'s loop: `\r\n` or a bare `\n`. -/
def emptyLine (line : List Nat) : Bool :=
  (line.length == 2 && line.getD 0 0 == 13 && line.getD 1 0 == 10) ||
    (line.length == 1 && line.getD 0 0 == 10)

instance {α β : Type} [DecidableEq α] [DecidableEq β] : DecidableEq (Except α β) :=
  fun a b =>
    match a, b with
    | Except.ok x, Except.ok y =>
      if h : x = y then isTrue (by rw [h]) else isFalse (by simp [h])
    | Except.error x, Except.error y =>
      if h : x = y then isTrue (by rw [h]) else isFalse (by simp [h])
    | Except.ok _, Except.error _ => isFalse (by simp)
    | Except.error _, Except.ok _ => isFalse (by simp)

/-- Outcome of `ConsumeHeader` over a byte stream: `result` is the Go
return value — `Except.ok` with the collected header on success,
`Except.error` with the slice Go returns alongside the error (`[]` for a
nil slice) — while `consumed` is the bytes actually removed from the
reader and `rest` what the reader can still deliver. -/
structure ConsumeOut where
  result : Except (List Nat) (List Nat)
  consumed : List Nat
  rest : List Nat
deriving DecidableEq

/-- The header loop of `ConsumeHeader` (`httpmask`): read a line; on a read
error return the lines collected so far (`consumed.Bytes()`, without the
partial line just consumed); on an empty line return them with the line
included; otherwise collect the line and continue. -/
def consumeLoop (acc s : List Nat) : ConsumeOut :=
  if h : (readSlice s).2.2 = true then
    if emptyLine (readSlice s).1 then
      ⟨Except.ok (acc ++ (readSlice s).1), acc ++ (readSlice s).1, (readSlice s).2.1⟩
    else consumeLoop (acc ++ (readSlice s).1) (readSlice s).2.1
  else ⟨Except.error acc, acc ++ (readSlice s).1, (readSlice s).2.1⟩
termination_by s.length
decreasing_by exact readSlice_true_length s h

theorem consumeLoop_spec : ∀ (n : Nat) (s acc : List Nat), s.length = n →
    (∀ h, (consumeLoop acc s).result = Except.ok h → (consumeLoop acc s).consumed = h) ∧
    (∀ p, (consumeLoop acc s).result = Except.error p →
      p <+: (consumeLoop acc s).consumed) := by
  intro n
  induction n using Nat.strong_induction_on with
  | _ n ih =>
    intro s acc hlen
    by_cases hok : (readSlice s).2.2 = true
    · by_cases hemp : emptyLine (readSlice s).1 = true
      · have hc : consumeLoop acc s =
            ⟨Except.ok (acc ++ (readSlice s).1), acc ++ (readSlice s).1,
              (readSlice s).2.1⟩ := by
          rw [consumeLoop, dif_pos hok, if_pos hemp]
        rw [hc]
        constructor
        · intro h heq
          simp only [Except.ok.injEq] at heq
          rw [← heq]
        · intro p heq
          exact absurd heq (by simp)
      · have hc : consumeLoop acc s =
            consumeLoop (acc ++ (readSlice s).1) (readSlice s).2.1 := by
          rw [consumeLoop, dif_pos hok, if_neg hemp]
        rw [hc]
        exact ih (readSlice s).2.1.length (hlen ▸ readSlice_true_length s hok) _ _ rfl
    · have hc : consumeLoop acc s =
          ⟨Except.error acc, acc ++ (readSlice s).1, (readSlice s).2.1⟩ := by
        rw [consumeLoop, dif_neg hok]
      rw [hc]
      refine ⟨fun h heq => absurd heq (by simp), fun p heq => ?_⟩
      simp only [Except.error.injEq] at heq
      rw [← heq]
      exact List.prefix_append acc (readSlice s).1

/-- Model of `httpmask.ConsumeHeader`: read the request line — a read error
returns `(nil, err)` dropping the partial line it consumed — check the
`POST` method (a mismatch returns the line with an error), then run the
header loop. -/
def consumeHeader (s : List Nat) : ConsumeOut :=
  if (readSlice s).2.2 = true then
    if (readSlice s).1.length < 4 ∨ (readSlice s).1.take 4 ≠ [80, 79, 83, 84] then
      ⟨Except.error (readSlice s).1, (readSlice s).1, (readSlice s).2.1⟩
    else consumeLoop (readSlice s).1 (readSlice s).2.1
  else ⟨Except.error [], (readSlice s).1, (readSlice s).2.1⟩

theorem consumeHeader_ok_consumed (s hdr : List Nat)
    (heq : (consumeHeader s).result = Except.ok hdr) :
    (consumeHeader s).consumed = hdr := by
  by_cases hok : (readSlice s).2.2 = true
  · by_cases hpost : (readSlice s).1.length < 4 ∨ (readSlice s).1.take 4 ≠ [80, 79, 83, 84]
    · rw [consumeHeader, if_pos hok, if_pos hpost] at heq
      exact absurd heq (by simp)
    · rw [consumeHeader, if_pos hok, if_neg hpost] at heq ⊢
      exact (consumeLoop_spec (readSlice s).2.1.length (readSlice s).2.1
        (readSlice s).1 rfl).1 hdr heq
  · rw [consumeHeader, if_neg hok] at heq
    exact absurd heq (by simp)

theorem consumeHeader_error_front (s p : List Nat)
    (heq : (consumeHeader s).result = Except.error p) :
    p <+: (consumeHeader s).consumed := by
  by_cases hok : (readSlice s).2.2 = true
  · by_cases hpost : (readSlice s).1.length < 4 ∨ (readSlice s).1.take 4 ≠ [80, 79, 83, 84]
    · rw [consumeHeader, if_pos hok, if_pos hpost] at heq ⊢
      simp only [Except.error.injEq] at heq
      rw [← heq]
    · rw [consumeHeader, if_pos hok, if_neg hpost] at heq ⊢
      exact (consumeLoop_spec (readSlice s).2.1.length (readSlice s).2.1
        (readSlice s).1 rfl).2 p heq
  · rw [consumeHeader, if_neg hok] at heq ⊢
    simp only [Except.error.injEq] at heq
    rw [← heq]
    exact List.nil_prefix

/-- Oracle for the handshake's effectful sub-steps below the HTTP-mask
layer, plus the handshake's inputs: `disableMask` is `cfg.DisableHTTPMask`
and `httpStream` the bytes the bufio reader can deliver to the mask layer
before its next read error. -/
structure HSOracle where
  disableMask : Bool
  httpStream : List Nat
  aeadOK : Bool
  snapAead : SudokuSnap
  readHSResult : Except Unit (List Nat)
  snapReadHS : SudokuSnap
  snapTimestamp : SudokuSnap
  now : Int
  readAddrResult : Except Unit (List Nat)
  bufferedAddr : List Nat

/-- The auto-detection in `ServerHandshake`: unless the mask is disabled,
`Peek(4)` succeeds and reads `"POST"`. -/
def maskDetected (o : HSOracle) : Bool :=
  !o.disableMask && decide (4 ≤ o.httpStream.length) &&
    decide (o.httpStream.take 4 = [80, 79, 83, 84])

/-- The HTTP-mask step: when the masquerade is detected, run
`ConsumeHeader`; otherwise no header bytes are consumed. -/
def consumeStep (o : HSOracle) : Except (List Nat) (List Nat) :=
  if maskDetected o then (consumeHeader o.httpStream).result else Except.ok []

/-- The value of the `httpHeaderData` variable in `ServerHandshake`:
whatever slice `ConsumeHeader` returned, on success or on error (`[]` both
for a nil slice and when no mask was consumed). -/
def headerReturned (o : HSOracle) : List Nat :=
  match consumeStep o with
  | Except.ok h => h
  | Except.error p => p

/-- The bytes actually removed from the transport during mask
consumption. -/
def maskConsumed (o : HSOracle) : List Nat :=
  if maskDetected o then (consumeHeader o.httpStream).consumed else []

/-- The cast `int64(binary.BigEndian.Uint64(...))`: two's-complement reinterpretation. -/
def toInt64 (v : Nat) : Int :=
  if v < 2 ^ 63 then (v : Int) else (v : Int) - 2 ^ 64

/-- Go `int64` subtraction `a - b`: wraps modulo `2^64` back into
`[-2^63, 2^63)`. -/
def subInt64 (a b : Int) : Int :=
  toInt64 (((a - b) % 2 ^ 64).toNat)

/-- Go `int64` negation `-x`: wraps, so `-(-2^63)` is `-2^63` itself. -/
def negInt64 (x : Int) : Int :=
  toInt64 (((-x) % 2 ^ 64).toNat)

/-- Model of `abs` from the handshake source, over wrapping `int64`
negation: `abs(-2^63) = -2^63`. -/
def absInt64 (x : Int) : Int :=
  if x < 0 then negInt64 x else x

theorem subInt64_eq (a b : Int) (h1 : -2 ^ 63 < a - b) (h2 : a - b < 2 ^ 63) :
    subInt64 a b = a - b := by
  rw [subInt64, toInt64]
  split <;> omega

theorem absInt64_eq (x : Int) (h1 : -2 ^ 63 < x) (h2 : x < 2 ^ 63) :
    absInt64 x = |x| := by
  rw [absInt64]
  by_cases hx : x < 0
  · rw [if_pos hx, negInt64, toInt64, abs_of_neg hx]
    split <;> omega
  · rw [if_neg hx, abs_of_nonneg (by omega)]

/-- The sudoku codec state visible to `GetBufferedAndRecorded` at each
failure stage: no codec exists yet at the HTTP-mask stage, and the recorder
has been released by `StopRecording` by the time the address read runs. -/
def snapAtFailure (o : HSOracle) : HSStage → Option SudokuSnap
  | HSStage.httpMask => none
  | HSStage.aeadSetup => some o.snapAead
  | HSStage.readHandshake => some o.snapReadHS
  | HSStage.timestamp => some o.snapTimestamp
  | HSStage.readAddress => some ⟨none, o.bufferedAddr⟩

/-- The control flow of `ServerHandshake` over the oracle. -/
def serverHandshake (raw : Nat) (o : HSOracle) : HSResult :=
  match consumeStep o with
  | Except.error hdrPart =>
      HSResult.fail HSStage.httpMask ⟨raw, hdrPart, getBufferedAndRecorded none⟩
  | Except.ok httpHeaderData =>
      if o.aeadOK = false then
        HSResult.fail HSStage.aeadSetup
          ⟨raw, httpHeaderData, getBufferedAndRecorded (some o.snapAead)⟩
      else
        match o.readHSResult with
        | Except.error _ =>
            HSResult.fail HSStage.readHandshake
              ⟨raw, httpHeaderData, getBufferedAndRecorded (some o.snapReadHS)⟩
        | Except.ok payload =>
            if 60 < absInt64 (subInt64 o.now (toInt64 (beUint64 (payload.take 8)))) then
              HSResult.fail HSStage.timestamp
                ⟨raw, httpHeaderData, getBufferedAndRecorded (some o.snapTimestamp)⟩
            else
              match o.readAddrResult with
              | Except.error _ =>
                  HSResult.fail HSStage.readAddress
                    ⟨raw, httpHeaderData,
                      getBufferedAndRecorded (some ⟨none, o.bufferedAddr⟩)⟩
              | Except.ok target => HSResult.ok target

theorem headerReturned_front (o : HSOracle) : headerReturned o <+: maskConsumed o := by
  rw [headerReturned, consumeStep, maskConsumed]
  by_cases hm : maskDetected o = true
  · rw [if_pos hm, if_pos hm]
    match hres : (consumeHeader o.httpStream).result with
    | Except.ok h =>
      rw [consumeHeader_ok_consumed o.httpStream h hres]
    | Except.error p =>
      exact consumeHeader_error_front o.httpStream p hres
  · rw [if_neg hm, if_neg hm]

theorem consumeStep_ok_consumed (o : HSOracle) (hdr : List Nat)
    (heq : consumeStep o = Except.ok hdr) : maskConsumed o = hdr := by
  rw [consumeStep] at heq
  rw [maskConsumed]
  by_cases hm : maskDetected o = true
  · rw [if_pos hm] at heq
    rw [if_pos hm]
    exact consumeHeader_ok_consumed o.httpStream hdr heq
  · rw [if_neg hm] at heq
    rw [if_neg hm]
    simp only [Except.ok.injEq] at heq
    exact heq

/-- Concrete oracle whose transport stream dies five bytes into the
request line. -/
def hsOracleMask : HSOracle :=
  ⟨false, [80, 79, 83, 84, 32], true, ⟨some [], []⟩, Except.ok (List.replicate 16 0),
    ⟨some [], []⟩, ⟨some [], []⟩, 0, Except.ok [1], []⟩

/-- C3 counterexample: on a stream holding exactly `"POST "` the mask is
detected and `ConsumeHeader` consumes all five bytes from the transport
before its read errors, yet the resulting `HandshakeError` carries an empty
`HTTPHeaderData` (Go returns `nil` on a request-line read error) — the
error does not carry the HTTP header bytes consumed during mask
consumption, refuting the claimed fallback contract's clause (b). -/
theorem serverHandshake_fallback_counterexample :
    serverHandshake 7 hsOracleMask = HSResult.fail HSStage.httpMask ⟨7, [], []⟩ ∧
    maskConsumed hsOracleMask = [80, 79, 83, 84, 32] ∧
    ¬((⟨7, [], []⟩ : HandshakeError).httpHeaderData = maskConsumed hsOracleMask) := by
  decide

/-- C3 (amended): fallback replay buffer.  Whenever the server handshake
fails at any stage from HTTP-mask consumption through reading the target
address, it returns a `HandshakeError` carrying (a) the raw transport
connection, (b) as `HTTPHeaderData` the slice `ConsumeHeader` returned —
always an initial segment of the bytes actually consumed from the
transport during mask consumption, and exactly those bytes whenever the
failure is at a later stage, but on a mask-stage failure the trailing
partial line (or, for a request-line read error, the whole consumed data)
is consumed yet omitted — and (c) `ReadData` equal to the puzzle codec's
recorded raw bytes concatenated with the bytes still buffered in its bufio
reader — the value of `GetBufferedAndRecorded` on the codec state at
failure time, nil at the mask stage where no codec exists. -/
theorem serverHandshake_fallback_amended (raw : Nat) (o : HSOracle)
    (stage : HSStage) (e : HandshakeError)
    (hfail : serverHandshake raw o = HSResult.fail stage e) :
    e.rawConn = raw ∧
    e.httpHeaderData = headerReturned o ∧
    headerReturned o <+: maskConsumed o ∧
    (stage = HSStage.httpMask ∨ e.httpHeaderData = maskConsumed o) ∧
    e.readData = getBufferedAndRecorded (snapAtFailure o stage) := by
  rw [serverHandshake] at hfail
  split at hfail
  · rename_i hdrPart heq
    cases hfail
    exact ⟨rfl, by rw [headerReturned, heq], headerReturned_front o, Or.inl rfl, rfl⟩
  · rename_i hdr heq
    split at hfail
    · cases hfail
      exact ⟨rfl, by rw [headerReturned, heq], headerReturned_front o,
        Or.inr (consumeStep_ok_consumed o hdr heq).symm, rfl⟩
    · split at hfail
      · cases hfail
        exact ⟨rfl, by rw [headerReturned, heq], headerReturned_front o,
          Or.inr (consumeStep_ok_consumed o hdr heq).symm, rfl⟩
      · split at hfail
        · cases hfail
          exact ⟨rfl, by rw [headerReturned, heq], headerReturned_front o,
            Or.inr (consumeStep_ok_consumed o hdr heq).symm, rfl⟩
        · split at hfail
          · cases hfail
            exact ⟨rfl, by rw [headerReturned, heq], headerReturned_front o,
              Or.inr (consumeStep_ok_consumed o hdr heq).symm, rfl⟩
          · cases hfail

/-- Concrete oracle with the mask disabled that fails the timestamp check
(server clock 100 against a zero wire timestamp), with recorded bytes
`[3, 4]` and buffered bytes `[5]` at failure time. -/
def hsOracleT : HSOracle :=
  ⟨true, [], true, ⟨some [], []⟩, Except.ok (List.replicate 16 0),
    ⟨some [], []⟩, ⟨some [3, 4], [5]⟩, 100, Except.ok [1], []⟩

/-- Witness for C3's amended theorem at a concrete oracle failing at the
timestamp stage. -/
theorem serverHandshake_fallback_amended_witness :
    serverHandshake 7 hsOracleT = HSResult.fail HSStage.timestamp ⟨7, [], [3, 4, 5]⟩ ∧
    (⟨7, [], [3, 4, 5]⟩ : HandshakeError).rawConn = 7 ∧
    (⟨7, [], [3, 4, 5]⟩ : HandshakeError).httpHeaderData = headerReturned hsOracleT ∧
    (⟨7, [], [3, 4, 5]⟩ : HandshakeError).readData =
      getBufferedAndRecorded (snapAtFailure hsOracleT HSStage.timestamp) := by
  have heval : serverHandshake 7 hsOracleT =
      HSResult.fail HSStage.timestamp ⟨7, [], [3, 4, 5]⟩ := by decide
  have h := serverHandshake_fallback_amended 7 hsOracleT HSStage.timestamp
    ⟨7, [], [3, 4, 5]⟩ heval
  exact ⟨heval, h.1, h.2.1, h.2.2.2.2⟩

/-- C6 (amended): handshake timestamp validation.  Once the 16-byte
handshake payload has been read and decrypted successfully, the handshake
fails at the timestamp check exactly when the source's wrapping computation
exceeds 60: `abs(now - ts)` evaluated in `int64` arithmetic, with
`ts = int64(BE(payload[:8]))`.  When that check passes, recording is
stopped and the run proceeds to the target-address step (so a later failure
exposes only bufio-buffered bytes, no recorder contents).  For differences
`now - ts` strictly inside the `int64` range the wrapped check agrees with
the true clock skew `|now - ts| > 60`; outside it the two diverge (see the
counterexample, where a skew of `2^63` seconds is accepted). -/
theorem serverHandshake_timestamp_amended (raw : Nat) (o : HSOracle)
    (payload : List Nat)
    (hmask : consumeStep o = Except.ok (headerReturned o))
    (haead : o.aeadOK = true)
    (hread : o.readHSResult = Except.ok payload) :
    ((∃ e, serverHandshake raw o = HSResult.fail HSStage.timestamp e) ↔
      60 < absInt64 (subInt64 o.now (toInt64 (beUint64 (payload.take 8))))) ∧
    (absInt64 (subInt64 o.now (toInt64 (beUint64 (payload.take 8)))) ≤ 60 →
      (∃ target, serverHandshake raw o = HSResult.ok target) ∨
      (∃ e, serverHandshake raw o = HSResult.fail HSStage.readAddress e ∧
        e.readData = getBufferedAndRecorded (some ⟨none, o.bufferedAddr⟩))) ∧
    (∀ d : Int, o.now - toInt64 (beUint64 (payload.take 8)) = d →
      -2 ^ 63 < d → d < 2 ^ 63 →
      (60 < absInt64 (subInt64 o.now (toInt64 (beUint64 (payload.take 8)))) ↔
        60 < |d|)) := by
  have hrun : serverHandshake raw o =
      (if 60 < absInt64 (subInt64 o.now (toInt64 (beUint64 (payload.take 8)))) then
        HSResult.fail HSStage.timestamp
          ⟨raw, headerReturned o, getBufferedAndRecorded (some o.snapTimestamp)⟩
      else
        match o.readAddrResult with
        | Except.error _ =>
            HSResult.fail HSStage.readAddress
              ⟨raw, headerReturned o,
                getBufferedAndRecorded (some ⟨none, o.bufferedAddr⟩)⟩
        | Except.ok target => HSResult.ok target) := by
    rw [serverHandshake, hmask, haead, hread]
    simp
  refine ⟨⟨?_, ?_⟩, ?_, ?_⟩
  · rintro ⟨e, he⟩
    by_contra hnot
    rw [hrun, if_neg hnot] at he
    match hra : o.readAddrResult with
    | Except.error u =>
      rw [hra] at he
      cases he
    | Except.ok target =>
      rw [hra] at he
      cases he
  · intro hskew
    exact ⟨_, by rw [hrun, if_pos hskew]⟩
  · intro hskew
    rw [hrun, if_neg (by omega)]
    match hra : o.readAddrResult with
    | Except.error u => exact Or.inr ⟨_, rfl, rfl⟩
    | Except.ok target => exact Or.inl ⟨target, rfl⟩
  · intro d hd h1 h2
    rw [subInt64_eq o.now (toInt64 (beUint64 (payload.take 8)))
      (by rw [hd]; exact h1) (by rw [hd]; exact h2), hd, absInt64_eq d h1 h2]

/-- Witness for C6's amended theorem: a concrete oracle with a zero wire
timestamp and server clock 100 (wrapped skew 100 > 60) fails at the
timestamp stage. -/
theorem serverHandshake_timestamp_amended_witness :
    ∃ e, serverHandshake 7 hsOracleT = HSResult.fail HSStage.timestamp e :=
  (serverHandshake_timestamp_amended 7 hsOracleT (List.replicate 16 0)
    rfl rfl rfl).1.mpr (by decide)

/-- Concrete oracle whose wire timestamp is `2^63` — decoded as the
`int64` value `-2^63` — against server clock 0, with the address read
delivering `[9]`. -/
def hsOracleWrap : HSOracle :=
  ⟨true, [], true, ⟨some [], []⟩,
    Except.ok [128, 0, 0, 0, 0, 0, 0, 0, 1, 2, 3, 4, 5, 6, 7, 8],
    ⟨some [], []⟩, ⟨some [], []⟩, 0, Except.ok [9], []⟩

/-- C6 counterexample: with server clock 0 and wire timestamp bytes
`80 00 00 00 00 00 00 00` the decoded timestamp is `-2^63`, so the true
skew is `2^63` seconds — far above 60 — yet the handshake completes
successfully: `now - ts` overflows to `-2^63` and the source's `abs`
returns `-2^63`, which is not greater than 60, refuting the claimed
"fails iff the timestamp differs by more than 60 seconds". -/
theorem serverHandshake_timestamp_counterexample :
    serverHandshake 7 hsOracleWrap = HSResult.ok [9] ∧
    60 < |hsOracleWrap.now -
      toInt64 (beUint64 (([128, 0, 0, 0, 0, 0, 0, 0, 1, 2, 3, 4, 5, 6, 7, 8] :
        List Nat).take 8))| := by
  decide


end Apis
